import Mathlib

/-!
Shallow embedding of the Simple DEFLATE decompressor (Python source
`deflatedecompress.py`) together with theorems settling the frozen claims
about its natural-language specification.

The embedding follows the Python source class by class:

* `BitInputStream` — the little-endian bit reader (`read_bit_maybe`,
  `read_uint`, `get_bit_position`, `close`);
* `CanonicalCode` — the canonical Huffman code constructor
  (`CanonicalCode.init`) and `decode_next_symbol`;
* `ByteHistory` — the 32 KiB LZ77 sliding window (`append`, `copy`);
* `Decompressor._decompress_uncompressed_block` and the distance-code
  repair step of `Decompressor._decode_huffman_codes`.

Python exceptions are modelled with `Except`; `while True` loops receive an
explicit fuel argument (constructor `outOfFuel` marks the model-only case of
fuel exhaustion, which the theorems show unreachable under the stated
hypotheses).
-/

/-- Errors of the modelled stream and block operations. `unexpectedEnd` is the
`EOFError("Unexpected end of stream")`, `negativeBitCount` the
`ValueError("Number of bits out of range")` of `read_uint`,
`corruptStoredHeader` the `ValueError("Invalid length in uncompressed block")`
of the stored-block handler, and `outOfFuel` is the model-only marker for
exhausted loop fuel. -/
inductive DeflateError where
  | unexpectedEnd
  | negativeBitCount
  | corruptStoredHeader
  | outOfFuel
  deriving DecidableEq

/-- State of a `BitInputStream`: `input` holds the bytes not yet pulled from
the underlying byte stream, `currentByte` is in `[0, 255]` or `-1` once end of
stream is reached, and `numBitsRemaining` counts the bits left in the current
byte. -/
structure BitInputStream where
  input : List Nat
  currentByte : Int
  numBitsRemaining : Nat
  deriving DecidableEq

/-- `get_bit_position`: returns `(-numBitsRemaining) mod 8`. -/
def BitInputStream.get_bit_position (s : BitInputStream) : Nat :=
  ((-(s.numBitsRemaining : Int)) % 8).toNat

/-- Common tail of `read_bit_maybe`: decrement `numBitsRemaining` and emit the
bit `(currentByte >> (7 - numBitsRemaining)) & 1`.  At this point the source
guarantees `currentByte` is in `[0, 255]`, so extracting the bit from
`currentByte.toNat` is faithful. -/
def BitInputStream.emitBit (s : BitInputStream) : Int × BitInputStream :=
  ((((s.currentByte.toNat >>> (7 - (s.numBitsRemaining - 1))) &&& 1 : Nat) : Int),
   { s with numBitsRemaining := s.numBitsRemaining - 1 })

/-- `read_bit_maybe`: returns `0` or `1` if a bit is available, `-1` at end of
stream.  Mirrors the source: sticky `-1` check, refill of the current byte
from the input when no bits remain, then the common decrement-and-emit tail. -/
def BitInputStream.read_bit_maybe (s : BitInputStream) : Int × BitInputStream :=
  if s.currentByte = -1 then (-1, s)
  else if s.numBitsRemaining = 0 then
    match s.input with
    | [] => (-1, { s with currentByte := -1 })
    | b :: rest =>
      BitInputStream.emitBit { input := rest, currentByte := (b : Int), numBitsRemaining := 8 }
  else BitInputStream.emitBit s

/-- Loop body of `read_uint`: `remaining` iterations left, `i` the index of the
next bit in the result, `result` the bits read so far (`result |= bit << i`). -/
def BitInputStream.readUintLoop : Nat → Nat → Nat → BitInputStream →
    Except DeflateError (Nat × BitInputStream)
  | 0, _, result, s => .ok (result, s)
  | remaining + 1, i, result, s =>
    let r := s.read_bit_maybe
    if r.1 = -1 then .error .unexpectedEnd
    else BitInputStream.readUintLoop remaining (i + 1) (result ||| (r.1.toNat <<< i)) r.2

/-- `read_uint(numbits)`: reads `numbits` bits, packing them in little endian.
Raises `ValueError` on a negative count and `EOFError` when the stream ends
mid-read. -/
def BitInputStream.read_uint (s : BitInputStream) (numbits : Int) :
    Except DeflateError (Nat × BitInputStream) :=
  if numbits < 0 then .error .negativeBitCount
  else BitInputStream.readUintLoop numbits.toNat 0 0 s

/-- `close`: the underlying stream is closed; observably the state becomes the
sticky end-of-stream state (`currentByte = -1`, `numBitsRemaining = 0`), after
which `read_bit_maybe` never touches the underlying stream again. -/
def BitInputStream.close (s : BitInputStream) : BitInputStream :=
  { s with currentByte := -1, numBitsRemaining := 0 }

/-- The eight bits of a byte in the order `read_bit_maybe` emits them
(least significant bit first). -/
def byteBits (b : Nat) : List Nat :=
  (List.range 8).map (fun i => (b >>> i) &&& 1)

/-- The sequence of bits that future `read_bit_maybe` calls will deliver:
the remaining bits of the current byte, then the bits of each input byte,
LSB first within each byte.  Empty once the sticky end-of-stream state is
reached. -/
def BitInputStream.bitsOf (s : BitInputStream) : List Nat :=
  if s.currentByte = -1 then []
  else
    (List.range s.numBitsRemaining).map
      (fun i => (s.currentByte.toNat >>> (8 - s.numBitsRemaining + i)) &&& 1)
    ++ s.input.flatMap byteBits

/-- Well-formedness of a bit-stream state, matching the source's documented
field invariants: at most 7 bits remain, the current byte is a byte or the
`-1` sentinel, the sentinel implies no bits remain, and all buffered input
bytes are bytes. -/
structure BitInputStream.WF (s : BitInputStream) : Prop where
  numLe : s.numBitsRemaining ≤ 7
  curRange : s.currentByte = -1 ∨ (0 ≤ s.currentByte ∧ s.currentByte ≤ 255)
  curEof : s.currentByte = -1 → s.numBitsRemaining = 0
  inputBytes : ∀ b ∈ s.input, b < 256

/-- Little-endian packing of a list of bits: bit `i` of the result is the
`i`-th element of the list. -/
def packLE : List Nat → Nat
  | [] => 0
  | b :: rest => b + 2 * packLE rest

/-! ### Arithmetic helpers -/

theorem lor_shiftLeft_eq_add {a : Nat} (b i : Nat) (h : a < 2 ^ i) :
    a ||| (b <<< i) = a + b <<< i := by
  rw [Nat.shiftLeft_eq, Nat.lor_comm, Nat.mul_comm, ← Nat.mul_add_lt_is_or h, Nat.add_comm]

theorem packLE_append (l₁ l₂ : List Nat) :
    packLE (l₁ ++ l₂) = packLE l₁ + 2 ^ l₁.length * packLE l₂ := by
  induction l₁ with
  | nil => simp [packLE]
  | cons b rest ih =>
    show b + 2 * packLE (rest ++ l₂) = b + 2 * packLE rest + 2 ^ (rest.length + 1) * packLE l₂
    rw [ih, pow_succ]
    ring

theorem byteBits_length (b : Nat) : (byteBits b).length = 8 := by
  simp [byteBits]

theorem packLE_range_bits (b n : Nat) :
    packLE ((List.range n).map (fun i => (b >>> i) &&& 1)) = b % 2 ^ n := by
  induction n with
  | zero => simp [packLE, Nat.mod_one]
  | succ n ih =>
    rw [List.range_succ, List.map_append, packLE_append, ih]
    simp only [List.map_cons, List.map_nil, List.length_map, List.length_range]
    have h1 : packLE [(b >>> n) &&& 1] = b / 2 ^ n % 2 := by
      simp [packLE, Nat.shiftRight_eq_div_pow]
    rw [h1, Nat.mod_pow_succ]

theorem packLE_byteBits {b : Nat} (hb : b < 256) : packLE (byteBits b) = b :=
  (packLE_range_bits b 8).trans (Nat.mod_eq_of_lt hb)

theorem byteBits_le_one {b x : Nat} (hx : x ∈ byteBits b) : x ≤ 1 := by
  simp only [byteBits, List.mem_map, List.mem_range] at hx
  obtain ⟨i, -, rfl⟩ := hx
  exact Nat.and_le_right

/-! ### Bit-level behaviour of `read_bit_maybe` and `read_uint` -/

theorem bitsOf_le_one {s : BitInputStream} {x : Nat} (hx : x ∈ s.bitsOf) : x ≤ 1 := by
  unfold BitInputStream.bitsOf at hx
  split at hx
  · simp at hx
  · rw [List.mem_append] at hx
    rcases hx with hx | hx
    · simp only [List.mem_map, List.mem_range] at hx
      obtain ⟨i, -, rfl⟩ := hx
      exact Nat.and_le_right
    · rw [List.mem_flatMap] at hx
      obtain ⟨b, -, hb⟩ := hx
      exact byteBits_le_one hb

/-- When at least one bit remains, `read_bit_maybe` delivers the head of
`bitsOf` and leaves a well-formed state holding the tail. -/
theorem read_bit_maybe_cons {s : BitInputStream} {x : Nat} {rest : List Nat}
    (hwf : s.WF) (hbits : s.bitsOf = x :: rest) :
    ∃ t, s.read_bit_maybe = ((x : Int), t) ∧ t.WF ∧ t.bitsOf = rest := by
  refine ⟨s.read_bit_maybe.2, ?_⟩
  have hcur : s.currentByte ≠ -1 := by
    intro h
    rw [BitInputStream.bitsOf, if_pos h] at hbits
    exact List.cons_ne_nil _ _ hbits.symm
  rcases hwf.curRange with h | ⟨hc0, hc255⟩
  · exact absurd h hcur
  rw [BitInputStream.bitsOf, if_neg hcur] at hbits
  unfold BitInputStream.read_bit_maybe
  rw [if_neg hcur]
  by_cases hnum : s.numBitsRemaining = 0
  · rw [if_pos hnum]
    rw [hnum] at hbits
    simp only [List.range_zero, List.map_nil, List.nil_append] at hbits
    match hinp : s.input with
    | [] => rw [hinp] at hbits; simp at hbits
    | b :: tl =>
      rw [hinp] at hbits
      have hb256 : b < 256 := hwf.inputBytes b (by rw [hinp]; exact List.mem_cons_self _ _)
      rw [List.flatMap_cons] at hbits
      have hbyte : byteBits b =
          ((b >>> 0) &&& 1) :: (List.range 7).map (fun i => (b >>> (i + 1)) &&& 1) := by
        show (List.range 8).map _ = _
        rw [show (8 : Nat) = 7 + 1 from rfl, List.range_succ_eq_map]
        simp only [List.map_cons, List.map_map]
        rfl
      rw [hbyte, List.cons_append] at hbits
      have hx : (b >>> 0) &&& 1 = x := (List.cons.injEq .. ▸ hbits).1
      have hrest : (List.range 7).map (fun i => (b >>> (i + 1)) &&& 1) ++ tl.flatMap byteBits
          = rest := (List.cons.injEq .. ▸ hbits).2
      refine ⟨?_, ?_, ?_⟩
      · simp only [BitInputStream.emitBit]
        have harg : ((b : Int).toNat >>> (7 - (8 - 1))) &&& 1 = (b >>> 0) &&& 1 := by
          norm_num
        rw [harg, hx]
      · refine ⟨by simp [BitInputStream.emitBit], ?_, ?_, ?_⟩
        · simp only [BitInputStream.emitBit]
          right
          refine ⟨by positivity, ?_⟩
          exact_mod_cast Nat.lt_succ_iff.mp hb256
        · simp only [BitInputStream.emitBit]
          intro hcb
          omega
        · simp only [BitInputStream.emitBit]
          exact fun c hc => hwf.inputBytes c (by rw [hinp]; exact List.mem_cons_of_mem _ hc)
      · simp only [BitInputStream.emitBit, BitInputStream.bitsOf]
        rw [if_neg (by simp)]
        simp only [Int.toNat_natCast]
        rw [← hrest]
        norm_num [Nat.add_comm]
  · rw [if_neg hnum]
    have hnum7 := hwf.numLe
    obtain ⟨n, hn⟩ : ∃ n, s.numBitsRemaining = n + 1 := ⟨s.numBitsRemaining - 1, by omega⟩
    rw [hn, List.range_succ_eq_map, List.map_cons, List.map_map, List.cons_append] at hbits
    have hx : (s.currentByte.toNat >>> (8 - (n + 1) + 0)) &&& 1 = x :=
      (List.cons.injEq .. ▸ hbits).1
    have hrest : (List.range n).map
          ((fun i => (s.currentByte.toNat >>> (8 - (n + 1) + i)) &&& 1) ∘ Nat.succ)
        ++ s.input.flatMap byteBits = rest := (List.cons.injEq .. ▸ hbits).2
    refine ⟨?_, ?_, ?_⟩
    · simp only [BitInputStream.emitBit]
      have harg : 7 - (s.numBitsRemaining - 1) = 8 - (n + 1) + 0 := by omega
      rw [harg, hx]
    · refine ⟨?_, Or.inr ⟨hc0, hc255⟩, fun h => absurd h hcur, hwf.inputBytes⟩
      simp only [BitInputStream.emitBit]
      omega
    · simp only [BitInputStream.emitBit, BitInputStream.bitsOf]
      rw [if_neg hcur]
      simp only [hn, Nat.add_sub_cancel]
      rw [← hrest]
      congr 1
      apply List.map_congr_left
      intro i hi
      rw [List.mem_range] at hi
      simp only [Function.comp]
      congr 2
      rw [hn] at hnum7
      omega

/-- When no bits remain, `read_bit_maybe` returns `-1` and the state reaches
the sticky end-of-stream configuration. -/
theorem read_bit_maybe_eof {s : BitInputStream} (hwf : s.WF) (hbits : s.bitsOf = []) :
    s.read_bit_maybe.1 = -1 ∧ s.read_bit_maybe.2.WF ∧
      s.read_bit_maybe.2.currentByte = -1 ∧ s.read_bit_maybe.2.bitsOf = [] := by
  unfold BitInputStream.read_bit_maybe
  by_cases hcur : s.currentByte = -1
  · rw [if_pos hcur]
    exact ⟨rfl, hwf, hcur, hbits⟩
  · rw [if_neg hcur]
    rw [BitInputStream.bitsOf, if_neg hcur, List.append_eq_nil] at hbits
    obtain ⟨hrange, hflat⟩ := hbits
    have hnum : s.numBitsRemaining = 0 := by
      simpa [List.map_eq_nil_iff, List.range_eq_nil] using hrange
    have hinp : s.input = [] := by
      match hi : s.input with
      | [] => rfl
      | b :: tl =>
        rw [hi, List.flatMap_cons] at hflat
        have h8 : (byteBits b).length = 0 := by
          rw [List.append_eq_nil] at hflat
          rw [hflat.1]
          rfl
        rw [byteBits_length] at h8
        omega
    rw [if_pos hnum, hinp]
    refine ⟨rfl, ⟨by simp [hnum], Or.inl rfl, fun _ => hnum, by simp [hinp]⟩, rfl, ?_⟩
    simp [BitInputStream.bitsOf]

theorem packLE_testBit {l : List Nat} (hl : ∀ b ∈ l, b ≤ 1) :
    ∀ i, (packLE l).testBit i = decide (l.getD i 0 = 1) := by
  induction l with
  | nil => intro i; simp [packLE, Nat.zero_testBit]
  | cons b rest ih =>
    intro i
    have hb : b ≤ 1 := hl b (List.mem_cons_self _ _)
    match i with
    | 0 =>
      show (b + 2 * packLE rest).testBit 0 = _
      rw [Nat.testBit_zero]
      simp only [List.getD_cons_zero]
      have hmod : (b + 2 * packLE rest) % 2 = b := by omega
      simp [hmod]
    | i + 1 =>
      show (b + 2 * packLE rest).testBit (i + 1) = _
      rw [Nat.testBit_add_one]
      have hdiv : (b + 2 * packLE rest) / 2 = packLE rest := by omega
      rw [hdiv, List.getD_cons_succ]
      exact ih (fun c hc => hl c (List.mem_cons_of_mem _ hc)) i

theorem readUintLoop_ok :
    ∀ (k i acc : Nat) (s : BitInputStream), s.WF → acc < 2 ^ i →
      k ≤ s.bitsOf.length →
      ∃ t, BitInputStream.readUintLoop k i acc s =
          .ok (acc + packLE (s.bitsOf.take k) <<< i, t) ∧
        t.WF ∧ t.bitsOf = s.bitsOf.drop k := by
  intro k
  induction k with
  | zero =>
    intro i acc s hwf _ _
    refine ⟨s, ?_, hwf, by simp⟩
    show Except.ok (acc, s) = _
    simp [packLE, Nat.zero_shiftLeft]
  | succ k ih =>
    intro i acc s hwf hacc hlen
    match hbits : s.bitsOf with
    | [] => rw [hbits] at hlen; simp at hlen
    | x :: rest =>
      obtain ⟨u, hr, hwf', hbits'⟩ := read_bit_maybe_cons hwf hbits
      have hx1 : x ≤ 1 := bitsOf_le_one (by rw [hbits]; exact List.mem_cons_self _ _)
      have hne : ¬((x : Int) = -1) := by omega
      have hacc' : acc ||| (((x : Int)).toNat <<< i) = acc + x <<< i := by
        rw [Int.toNat_natCast]
        exact lor_shiftLeft_eq_add x i hacc
      have hlt' : acc + x <<< i < 2 ^ (i + 1) := by
        rw [Nat.shiftLeft_eq, pow_succ]
        have : x * 2 ^ i ≤ 2 ^ i := by
          calc x * 2 ^ i ≤ 1 * 2 ^ i := Nat.mul_le_mul_right _ hx1
          _ = 2 ^ i := one_mul _
        omega
      have hlen' : k ≤ u.bitsOf.length := by
        rw [hbits']
        rw [hbits] at hlen
        simpa using hlen
      obtain ⟨t, hok, hwt, hbt⟩ := ih (i + 1) (acc + x <<< i) u hwf' hlt' hlen'
      refine ⟨t, ?_, hwt, ?_⟩
      · rw [BitInputStream.readUintLoop, hr]
        show (if (x : Int) = -1 then Except.error DeflateError.unexpectedEnd
          else BitInputStream.readUintLoop k (i + 1) (acc ||| ((x : Int)).toNat <<< i) u) = _
        rw [if_neg hne, hacc', hok]
        congr 2
        rw [hbits']
        show acc + x <<< i + packLE (List.take k rest) <<< (i + 1)
            = acc + (x + 2 * packLE (List.take k rest)) <<< i
        rw [Nat.shiftLeft_eq, Nat.shiftLeft_eq, Nat.shiftLeft_eq, pow_succ]
        ring
      · rw [hbt, hbits', List.drop_succ_cons]

theorem readUintLoop_eof :
    ∀ (k i acc : Nat) (s : BitInputStream), s.WF → s.bitsOf.length < k →
      BitInputStream.readUintLoop k i acc s = .error .unexpectedEnd := by
  intro k
  induction k with
  | zero => intro i acc s _ h; simp at h
  | succ k ih =>
    intro i acc s hwf hlen
    match hbits : s.bitsOf with
    | [] =>
      obtain ⟨hr1, -, -, -⟩ := read_bit_maybe_eof hwf hbits
      rw [BitInputStream.readUintLoop]
      show (if s.read_bit_maybe.1 = -1 then Except.error DeflateError.unexpectedEnd
        else _) = _
      rw [if_pos hr1]
    | x :: rest =>
      obtain ⟨u, hr, hwf', hbits'⟩ := read_bit_maybe_cons hwf hbits
      have hne : ¬((x : Int) = -1) := by omega
      rw [BitInputStream.readUintLoop, hr]
      show (if (x : Int) = -1 then Except.error DeflateError.unexpectedEnd
        else BitInputStream.readUintLoop k (i + 1) (acc ||| ((x : Int)).toNat <<< i) u) = _
      rw [if_neg hne]
      apply ih _ _ _ hwf'
      rw [hbits']
      rw [hbits] at hlen
      simpa using hlen

/-- Packaged success behaviour of `read_uint` for a nonnegative bit count. -/
theorem read_uint_ok {s : BitInputStream} (k : Nat) (hwf : s.WF)
    (hlen : k ≤ s.bitsOf.length) :
    ∃ t, s.read_uint (k : Int) = .ok (packLE (s.bitsOf.take k), t) ∧
      t.WF ∧ t.bitsOf = s.bitsOf.drop k := by
  obtain ⟨t, hok, hwt, hbt⟩ := readUintLoop_ok k 0 0 s hwf (by norm_num) hlen
  refine ⟨t, ?_, hwt, hbt⟩
  rw [BitInputStream.read_uint, if_neg (by omega)]
  rw [Int.toNat_natCast, hok]
  congr 2
  rw [Nat.shiftLeft_zero]
  omega

/-- Packaged failure behaviour of `read_uint` when fewer than `k` bits remain. -/
theorem read_uint_eof {s : BitInputStream} (k : Nat) (hwf : s.WF)
    (hlen : s.bitsOf.length < k) :
    s.read_uint (k : Int) = .error .unexpectedEnd := by
  rw [BitInputStream.read_uint, if_neg (by omega), Int.toNat_natCast]
  exact readUintLoop_eof k 0 0 s hwf hlen

theorem getD_take {l : List Nat} {k i : Nat} (h : i < k) :
    (l.take k).getD i 0 = l.getD i 0 := by
  induction l generalizing k i with
  | nil => simp
  | cons b rest ih =>
    match k, i with
    | k + 1, 0 => simp
    | k + 1, i + 1 =>
      simp only [List.take_succ_cons, List.getD_cons_succ]
      exact ih (by omega)

/-- **C6**: for every `k` in `[0, 32]`, if at least `k` bits remain in the
stream then `read_uint(k)` consumes exactly `k` bits and returns them packed
little-endian (the `i`-th bit read becomes bit `i` of the result); if the
underlying byte stream is exhausted before all `k` bits are read, it fails
with the `unexpectedEnd` error. -/
theorem read_uint_little_endian (s : BitInputStream) (k : Nat)
    (hwf : s.WF) (_hk : k ≤ 32) :
    (k ≤ s.bitsOf.length →
      ∃ t, s.read_uint (k : Int) = .ok (packLE (s.bitsOf.take k), t) ∧
        (∀ i, i < k → (packLE (s.bitsOf.take k)).testBit i
            = decide (s.bitsOf.getD i 0 = 1)) ∧
        t.WF ∧ t.bitsOf = s.bitsOf.drop k) ∧
    (s.bitsOf.length < k → s.read_uint (k : Int) = .error .unexpectedEnd) := by
  constructor
  · intro hlen
    obtain ⟨t, hok, hwt, hbt⟩ := read_uint_ok k hwf hlen
    refine ⟨t, hok, ?_, hwt, hbt⟩
    intro i hi
    rw [packLE_testBit (fun b hb => bitsOf_le_one (List.take_subset _ _ hb)) i,
      getD_take hi]
  · intro hlen
    exact read_uint_eof k hwf hlen

theorem read_uint_little_endian_witness :
    ∃ t, BitInputStream.read_uint ⟨[135], 0, 0⟩ (3 : Int) = .ok (7, t) ∧
      t.bitsOf = [0, 0, 0, 0, 1] := by
  have hwf : BitInputStream.WF ⟨[135], 0, 0⟩ :=
    ⟨by norm_num, Or.inr (by norm_num), fun _ => rfl, by decide⟩
  obtain ⟨t, hok, -, -, hbt⟩ :=
    (read_uint_little_endian ⟨[135], 0, 0⟩ 3 hwf (by norm_num)).1 (by decide)
  refine ⟨t, ?_, ?_⟩
  · rw [show ((3 : Nat) : Int) = (3 : Int) from rfl] at hok
    rw [hok,
      show packLE (List.take 3 (BitInputStream.bitsOf ⟨[135], 0, 0⟩)) = 7 from by decide]
  · rw [hbt]
    decide

/-- **C10**: end of stream is sticky: once `read_bit_maybe` has returned `-1`
(or `close()` was called), every later `read_bit_maybe` call returns `-1`
without touching the underlying stream (the state is a fixed point), and every
later `read_uint(k)` with `k ≥ 1` raises `unexpectedEnd`. -/
theorem end_of_stream_is_sticky (s t : BitInputStream)
    (h : s.read_bit_maybe = (-1, t) ∨ t = s.close) :
    t.read_bit_maybe = (-1, t) ∧
      ∀ k : Int, 1 ≤ k → t.read_uint k = .error .unexpectedEnd := by
  have ht : t.currentByte = -1 := by
    rcases h with h | h
    · unfold BitInputStream.read_bit_maybe at h
      by_cases hcur : s.currentByte = -1
      · rw [if_pos hcur] at h
        have := (Prod.mk.injEq .. ▸ h).2
        rw [← this]
        exact hcur
      · rw [if_neg hcur] at h
        by_cases hnum : s.numBitsRemaining = 0
        · rw [if_pos hnum] at h
          match hinp : s.input with
          | [] =>
            rw [hinp] at h
            have := (Prod.mk.injEq .. ▸ h).2
            rw [← this]
          | b :: tl =>
            rw [hinp] at h
            have hfst := (Prod.mk.injEq .. ▸ h).1
            simp only [BitInputStream.emitBit] at hfst
            omega
        · rw [if_neg hnum] at h
          have hfst := (Prod.mk.injEq .. ▸ h).1
          simp only [BitInputStream.emitBit] at hfst
          omega
    · rw [h]
      rfl
  have hrb : t.read_bit_maybe = (-1, t) := by
    unfold BitInputStream.read_bit_maybe
    rw [if_pos ht]
  refine ⟨hrb, ?_⟩
  intro k hk
  rw [BitInputStream.read_uint, if_neg (by omega)]
  obtain ⟨m, hm⟩ : ∃ m, k.toNat = m + 1 := ⟨k.toNat - 1, by omega⟩
  rw [hm, BitInputStream.readUintLoop, hrb]
  show (if (-1 : Int) = -1 then Except.error DeflateError.unexpectedEnd else _) = _
  rw [if_pos rfl]

theorem end_of_stream_is_sticky_witness :
    BitInputStream.read_bit_maybe ⟨[], -1, 0⟩ = (-1, ⟨[], -1, 0⟩) ∧
      BitInputStream.read_uint ⟨[], -1, 0⟩ (5 : Int) = .error .unexpectedEnd := by
  obtain ⟨h1, h2⟩ :=
    end_of_stream_is_sticky ⟨[], 0, 0⟩ ⟨[], -1, 0⟩ (Or.inl (by decide))
  exact ⟨h1, h2 5 (by norm_num)⟩

/-! ### `ByteHistory`: the LZ77 sliding window -/

/-- State of `ByteHistory`: circular buffer `data`, write index `index` (next
byte to write), and fill count `length` (saturating at the buffer size). -/
structure ByteHistory where
  data : List Nat
  index : Nat
  length : Nat
  deriving DecidableEq

/-- `ByteHistory(size)`: requires a positive size, allocates a zeroed buffer. -/
def ByteHistory.init (size : Int) : Option ByteHistory :=
  if size < 1 then none
  else some ⟨List.replicate size.toNat 0, 0, 0⟩

/-- `append(b)`: write at `index`, advance `index` circularly, saturate
`length`. -/
def ByteHistory.append (h : ByteHistory) (b : Nat) : ByteHistory :=
  { data := h.data.set h.index b,
    index := (h.index + 1) % h.data.length,
    length := min (h.length + 1) h.data.length }

/-- Loop body of `copy`: per iteration, read the byte at `readindex`, advance
`readindex` circularly, write the byte to the output sink, then `append` it
back into the window.  Returns the final window, the final `readindex`, and
the bytes written to the sink in write order. -/
def ByteHistory.copyLoop : Nat → ByteHistory → Nat → ByteHistory × Nat × List Nat
  | 0, h, readindex => (h, readindex, [])
  | n + 1, h, readindex =>
    let b := h.data.getD readindex 0
    let readindex' := (readindex + 1) % h.data.length
    let r := ByteHistory.copyLoop n (h.append b) readindex'
    (r.1, r.2.1, b :: r.2.2)

/-- `copy(dist, count, out)`: validity check first (raising `ValueError`
before anything is written — the error payload records the window state and
sink output at raise time), then the byte-by-byte interleaved copy. -/
def ByteHistory.copy (h : ByteHistory) (dist count : Int) :
    Except (ByteHistory × List Nat) (ByteHistory × List Nat) :=
  if count < 0 ∨ ¬(1 ≤ dist ∧ dist ≤ (h.length : Int)) then .error (h, [])
  else
    let readindex := (((h.index : Int) - dist) % (h.data.length : Int)).toNat
    let r := ByteHistory.copyLoop count.toNat h readindex
    .ok (r.1, r.2.2)

/-- Well-formedness of a window state, as maintained by the source:
a positive buffer, write index inside the buffer, fill count at most the
buffer size. -/
structure ByteHistory.WF (h : ByteHistory) : Prop where
  sizePos : 0 < h.data.length
  indexLt : h.index < h.data.length
  lenLe : h.length ≤ h.data.length

/-- **C4**: `ByteHistory.copy(dist, count, out)` raises the invalid-distance
`ValueError` exactly when `count < 0` or `dist` lies outside `[1, length]`;
and whenever it raises, no byte has been written to the sink and the window
state is unchanged (the error payload is the original window with an empty
output). -/
theorem copy_invalid_distance_iff (h : ByteHistory) (dist count : Int)
    (e : ByteHistory × List Nat) :
    h.copy dist count = .error e ↔
      ((count < 0 ∨ dist < 1 ∨ (h.length : Int) < dist) ∧ e = (h, [])) := by
  unfold ByteHistory.copy
  by_cases hc : count < 0 ∨ ¬(1 ≤ dist ∧ dist ≤ (h.length : Int))
  · rw [if_pos hc]
    constructor
    · intro he
      have he' : (h, ([] : List Nat)) = e := by
        have := Except.error.injEq (α := ByteHistory × List Nat) .. ▸ he
        exact this
      exact ⟨by omega, he'.symm⟩
    · intro ⟨_, he⟩
      rw [he]
  · rw [if_neg hc]
    constructor
    · intro he
      exact absurd he (by simp)
    · intro ⟨hcond, _⟩
      exact absurd hcond (by omega)

theorem copy_invalid_distance_iff_witness :
    ByteHistory.copy ⟨[0, 0, 0, 0], 2, 2⟩ 3 5 = .error (⟨[0, 0, 0, 0], 2, 2⟩, []) := by
  rw [copy_invalid_distance_iff ⟨[0, 0, 0, 0], 2, 2⟩ 3 5 (⟨[0, 0, 0, 0], 2, 2⟩, [])]
  exact ⟨by norm_num, rfl⟩

theorem pred_index_succ {i m : Nat} (hm : 0 < m) (hi : i < m) :
    ((i + m - 1) % m + 1) % m = i := by
  match i with
  | 0 =>
    have h1 : (0 + m - 1) % m = m - 1 := by
      rw [Nat.zero_add]
      exact Nat.mod_eq_of_lt (by omega)
    rw [h1, show m - 1 + 1 = m by omega, Nat.mod_self]
  | i + 1 =>
    have h1 : i + 1 + m - 1 = i + m := by omega
    rw [h1, Nat.add_mod_right, Nat.mod_eq_of_lt (show i < m by omega)]
    exact Nat.mod_eq_of_lt hi

theorem succ_index_pred {i m : Nat} (hm : 0 < m) (hi : i < m) :
    ((i + 1) % m + m - 1) % m = i := by
  by_cases h : i + 1 < m
  · rw [Nat.mod_eq_of_lt h, show i + 1 + m - 1 = i + m by omega,
      Nat.add_mod_right, Nat.mod_eq_of_lt (by omega)]
  · have him : i + 1 = m := by omega
    rw [him, Nat.mod_self, Nat.zero_add, Nat.mod_eq_of_lt (by omega)]
    omega

theorem append_size (h : ByteHistory) (b : Nat) :
    (h.append b).data.length = h.data.length := by
  simp [ByteHistory.append]

/-- With `dist = 1`, each loop iteration of `copy` reads the byte just behind
the write cursor, which the interleaved `append` keeps equal to `b`. -/
theorem copyLoop_dist_one :
    ∀ (n : Nat) (u : ByteHistory) (b : Nat),
      0 < u.data.length → u.index < u.data.length →
      u.data.getD ((u.index + u.data.length - 1) % u.data.length) 0 = b →
      ∃ h' r, ByteHistory.copyLoop n u ((u.index + u.data.length - 1) % u.data.length)
          = (h', r, List.replicate n b) := by
  intro n
  induction n with
  | zero =>
    intro u b _ _ _
    exact ⟨u, _, rfl⟩
  | succ n ih =>
    intro u b hm hi hb
    have hsize : (u.append b).data.length = u.data.length := append_size u b
    have hvi : (u.append b).index = (u.index + 1) % u.data.length := rfl
    have hvi_lt : (u.append b).index < (u.append b).data.length := by
      rw [hsize, hvi]
      exact Nat.mod_lt _ hm
    have hri' : ((u.index + u.data.length - 1) % u.data.length + 1) % u.data.length
        = u.index := pred_index_succ hm hi
    have hback : ((u.append b).index + (u.append b).data.length - 1)
        % (u.append b).data.length = u.index := by
      rw [hsize, hvi]
      exact succ_index_pred hm hi
    have hgetb : (u.append b).data.getD
        (((u.append b).index + (u.append b).data.length - 1)
          % (u.append b).data.length) 0 = b := by
      rw [hback]
      show (u.data.set u.index b).getD u.index 0 = b
      rw [List.getD_eq_getElem?_getD, List.getElem?_set_self (by omega)]
      rfl
    obtain ⟨h', r, hrec⟩ := ih (u.append b) b (by omega) hvi_lt hgetb
    rw [hback] at hrec
    refine ⟨h', r, ?_⟩
    rw [ByteHistory.copyLoop]
    simp only [hb, hri', hrec, List.replicate_succ]

theorem int_sub_one_emod {a m : Nat} (ha : a < m) :
    (((a : Int) - 1) % (m : Int)).toNat = (a + m - 1) % m := by
  match a with
  | 0 =>
    have h1 : ((0 : Nat) : Int) - 1 = -1 := by norm_num
    have h2 : (-1 : Int) % (m : Int) = (m : Int) - 1 := by
      calc (-1 : Int) % (m : Int) = (-1 + (m : Int) * 1) % (m : Int) := by
            rw [Int.add_mul_emod_self_left]
        _ = ((m : Int) - 1) % (m : Int) := by ring_nf
        _ = (m : Int) - 1 := Int.emod_eq_of_lt (by omega) (by omega)
    rw [h1, h2, show (0 + m - 1) % m = m - 1 from by
      rw [Nat.zero_add]; exact Nat.mod_eq_of_lt (by omega)]
    omega
  | a + 1 =>
    have h1 : ((a + 1 : Nat) : Int) - 1 = (a : Int) := by push_cast; ring
    have h2 : (a : Int) % (m : Int) = (a : Int) :=
      Int.emod_eq_of_lt (by omega) (by exact_mod_cast (by omega : a < m))
    rw [h1, h2, show (a + 1 + m - 1) % m = a from by
      rw [show a + 1 + m - 1 = a + m from by omega, Nat.add_mod_right]
      exact Nat.mod_eq_of_lt (by omega)]
    omega

/-- **C5**: for every window whose fill count is at least 1 — here one to
which a byte `b` has just been appended — and every `n ≥ 0`,
`copy(1, n, out)` writes to the sink exactly `n` copies of the most recently
appended byte `b` (LZ77 run-length expansion through the overlapping
self-reference). -/
theorem copy_dist_one_replicates (h0 : ByteHistory) (b : Nat) (n : Int)
    (hwf : h0.WF) (hn : 0 ≤ n) :
    ∃ h', (h0.append b).copy 1 n = .ok (h', List.replicate n.toNat b) := by
  have hm0 : 0 < h0.data.length := hwf.sizePos
  have hsize : (h0.append b).data.length = h0.data.length := append_size h0 b
  have hvi : (h0.append b).index = (h0.index + 1) % h0.data.length := rfl
  have hvi_lt : (h0.append b).index < (h0.append b).data.length := by
    rw [hsize, hvi]
    exact Nat.mod_lt _ hm0
  have hlen1 : 1 ≤ (h0.append b).length := by
    show 1 ≤ min (h0.length + 1) h0.data.length
    omega
  have hback : ((h0.append b).index + (h0.append b).data.length - 1)
      % (h0.append b).data.length = h0.index := by
    rw [hsize, hvi]
    exact succ_index_pred hm0 hwf.indexLt
  have hgetb : (h0.append b).data.getD
      (((h0.append b).index + (h0.append b).data.length - 1)
        % (h0.append b).data.length) 0 = b := by
    rw [hback]
    show (h0.data.set h0.index b).getD h0.index 0 = b
    rw [List.getD_eq_getElem?_getD, List.getElem?_set_self hwf.indexLt]
    rfl
  obtain ⟨h', r, hloop⟩ :=
    copyLoop_dist_one n.toNat (h0.append b) b (by omega) hvi_lt hgetb
  refine ⟨h', ?_⟩
  rw [ByteHistory.copy, if_neg (by push_neg; refine ⟨hn, by norm_num, ?_⟩; exact_mod_cast hlen1)]
  have hri : ((((h0.append b).index : Int) - 1) % ((h0.append b).data.length : Int)).toNat
      = ((h0.append b).index + (h0.append b).data.length - 1)
        % (h0.append b).data.length :=
    int_sub_one_emod hvi_lt
  simp only [hri, hloop]

theorem copy_dist_one_replicates_witness :
    ∃ h', (ByteHistory.append ⟨[0, 0, 0], 1, 1⟩ 9).copy 1 4 = .ok (h', [9, 9, 9, 9]) := by
  obtain ⟨h', hcp⟩ := copy_dist_one_replicates ⟨[0, 0, 0], 1, 1⟩ 9 4
    ⟨by norm_num, by norm_num, by norm_num⟩ (by norm_num)
  rw [show List.replicate (Int.toNat 4) 9 = [9, 9, 9, 9] from rfl] at hcp
  exact ⟨h', hcp⟩

/-! ### `CanonicalCode`: construction -/

/-- Errors of the `CanonicalCode` constructor, one per distinct `ValueError`
site in the source (`maxOfEmpty` models the `ValueError` Python's `max()`
raises on an empty sequence). -/
inductive CodeError where
  | negativeLength
  | maxOfEmpty
  | overfull
  | underfull
  deriving DecidableEq

/-- Inner loop of the constructor, over `enumerate(codelengths)` for one value
of `codelength`: skip symbols of other lengths; on `nextcode >= startbit`
raise the over-full error; otherwise register `startbit | nextcode -> symbol`
and increment `nextcode`.  The Python dictionary is modelled as an association
list in insertion order; its keys are pairwise distinct (proved below), so
`List.lookup` agrees with the dict. -/
def assignSymbols (codelength startbit : Nat) :
    List Nat → Nat → Nat → List (Nat × Nat) →
    Except CodeError (Nat × List (Nat × Nat))
  | [], _, nextcode, m => .ok (nextcode, m)
  | c :: rest, symbol, nextcode, m =>
    if c ≠ codelength then assignSymbols codelength startbit rest (symbol + 1) nextcode m
    else if startbit ≤ nextcode then .error .overfull
    else assignSymbols codelength startbit rest (symbol + 1) (nextcode + 1)
      (m ++ [(startbit ||| nextcode, symbol)])

/-- Outer loop of the constructor: `for codelength in range(1, max + 1)`,
left-shifting `nextcode` before each inner pass.  `steps` counts the lengths
still to process. -/
def buildCode (cl : List Nat) : Nat → Nat → Nat → List (Nat × Nat) →
    Except CodeError (Nat × List (Nat × Nat))
  | 0, _, nextcode, m => .ok (nextcode, m)
  | steps + 1, codelength, nextcode, m =>
    match assignSymbols codelength (1 <<< codelength) cl 0 (nextcode <<< 1) m with
    | .error e => .error e
    | .ok (n', m') => buildCode cl steps (codelength + 1) n' m'

/-- `max(codelengths)`: for a nonempty list of naturals, `foldl max 0` equals
Python's `max`. -/
def maxList (cl : List Nat) : Nat := cl.foldl max 0

/-- `CanonicalCode.__init__`: reject negative lengths, assign code values in
order of ascending code length breaking ties by lowest symbol value, then
require `nextcode == 1 << max(codelengths)` (else under-full).  The lengths
are taken as Python ints; after the sign check they are naturals, so the loops
run over `codelengths.map Int.toNat`. -/
def CanonicalCode.init (codelengths : List Int) :
    Except CodeError (List (Nat × Nat)) :=
  if codelengths.any (fun x => x < 0) then .error .negativeLength
  else if codelengths.isEmpty then .error .maxOfEmpty
  else
    let cl : List Nat := codelengths.map Int.toNat
    match buildCode cl (maxList cl) 1 0 [] with
    | .error e => .error e
    | .ok (nextcode, m) =>
      if nextcode ≠ 1 <<< maxList cl then .error .underfull else .ok m

/-- Specification-side value of `nextcode` after the lengths `1..j` have been
processed: `kraftF cl j = Σ_(i ≤ j) count(i) · 2^(j - i)`. -/
def kraftF (cl : List Nat) : Nat → Nat
  | 0 => 0
  | j + 1 => 2 * kraftF cl j + cl.count (j + 1)

/-- The dictionary entries the inner loop appends for symbols of length
`codelength`, starting at symbol index `symbol` and code value `nextcode`. -/
def entriesFor (codelength : Nat) : List Nat → Nat → Nat → List (Nat × Nat)
  | [], _, _ => []
  | c :: rest, symbol, nextcode =>
    if c = codelength then
      ((1 <<< codelength) ||| nextcode, symbol)
        :: entriesFor codelength rest (symbol + 1) (nextcode + 1)
    else entriesFor codelength rest (symbol + 1) nextcode

/-- All dictionary entries for code lengths `1..j`, in insertion order. -/
def entriesUpTo (cl : List Nat) : Nat → List (Nat × Nat)
  | 0 => []
  | j + 1 => entriesUpTo cl j ++ entriesFor (j + 1) cl 0 (2 * kraftF cl j)

theorem assignSymbols_ok (codelength : Nat) :
    ∀ (r : List Nat) (s n : Nat) (m : List (Nat × Nat)),
      n + r.count codelength ≤ 1 <<< codelength →
      assignSymbols codelength (1 <<< codelength) r s n m =
        .ok (n + r.count codelength, m ++ entriesFor codelength r s n) := by
  intro r
  induction r with
  | nil => intro s n m _; simp [assignSymbols, entriesFor]
  | cons c rest ih =>
    intro s n m hle
    by_cases hc : c = codelength
    · rw [assignSymbols, if_neg (by simpa using hc)]
      have hcount : (c :: rest).count codelength = rest.count codelength + 1 := by
        simp [List.count_cons, hc]
      rw [hcount] at hle
      rw [if_neg (by omega)]
      rw [ih (s + 1) (n + 1) (m ++ [(1 <<< codelength ||| n, s)]) (by omega)]
      rw [entriesFor, if_pos hc, hcount]
      simp only [List.append_assoc, List.singleton_append]
      congr 2
      omega
    · rw [assignSymbols, if_pos (by simpa using hc)]
      have hcount : (c :: rest).count codelength = rest.count codelength := by
        simp [List.count_cons, hc]
      rw [hcount] at hle
      rw [ih (s + 1) n m hle, entriesFor, if_neg hc, hcount]

theorem assignSymbols_ok_inv (codelength : Nat) :
    ∀ (r : List Nat) (s n : Nat) (m : List (Nat × Nat)) (n' : Nat)
      (m' : List (Nat × Nat)),
      assignSymbols codelength (1 <<< codelength) r s n m = .ok (n', m') →
      n' = n + r.count codelength ∧ m' = m ++ entriesFor codelength r s n ∧
        (0 < r.count codelength → n + r.count codelength ≤ 1 <<< codelength) := by
  intro r
  induction r with
  | nil =>
    intro s n m n' m' h
    rw [assignSymbols] at h
    obtain ⟨h1, h2⟩ := Prod.mk.injEq .. ▸ (Except.ok.injEq .. ▸ h)
    refine ⟨?_, ?_, by simp⟩
    · rw [← h1]
      simp
    · rw [← h2, entriesFor]
      simp
  | cons c rest ih =>
    intro s n m n' m' h
    by_cases hc : c = codelength
    · rw [assignSymbols, if_neg (by simpa using hc)] at h
      have hcount : (c :: rest).count codelength = rest.count codelength + 1 := by
        simp [List.count_cons, hc]
      by_cases hover : 1 <<< codelength ≤ n
      · rw [if_pos hover] at h
        exact absurd h (by simp)
      · rw [if_neg hover] at h
        obtain ⟨e1, e2, e3⟩ := ih (s + 1) (n + 1) (m ++ [(1 <<< codelength ||| n, s)]) n' m' h
        refine ⟨by omega, ?_, by omega⟩
        rw [e2, entriesFor, if_pos hc]
        simp only [List.append_assoc, List.singleton_append]
    · rw [assignSymbols, if_pos (by simpa using hc)] at h
      have hcount : (c :: rest).count codelength = rest.count codelength := by
        simp [List.count_cons, hc]
      obtain ⟨e1, e2, e3⟩ := ih (s + 1) n m n' m' h
      rw [hcount]
      exact ⟨e1, by rw [e2, entriesFor, if_neg hc], e3⟩

theorem kraftF_succ (cl : List Nat) (j : Nat) :
    kraftF cl (j + 1) = 2 * kraftF cl j + cl.count (j + 1) := rfl

theorem entriesUpTo_succ (cl : List Nat) (j : Nat) :
    entriesUpTo cl (j + 1) = entriesUpTo cl j ++ entriesFor (j + 1) cl 0 (2 * kraftF cl j) := rfl

theorem buildCode_ok (cl : List Nat) :
    ∀ (steps a : Nat),
      (∀ j, a < j → j ≤ a + steps → kraftF cl j ≤ 2 ^ j) →
      buildCode cl steps (a + 1) (kraftF cl a) (entriesUpTo cl a)
        = .ok (kraftF cl (a + steps), entriesUpTo cl (a + steps)) := by
  intro steps
  induction steps with
  | zero =>
    intro a _
    rw [buildCode, Nat.add_zero]
  | succ steps ih =>
    intro a hbound
    have hshift : kraftF cl a <<< 1 = 2 * kraftF cl a := by
      rw [Nat.shiftLeft_eq, pow_one, Nat.mul_comm]
    have hle : 2 * kraftF cl a + cl.count (a + 1) ≤ 1 <<< (a + 1) := by
      rw [Nat.one_shiftLeft]
      exact kraftF_succ cl a ▸ hbound (a + 1) (by omega) (by omega)
    rw [buildCode, hshift,
      assignSymbols_ok (a + 1) cl 0 (2 * kraftF cl a) (entriesUpTo cl a) hle]
    show buildCode cl steps (a + 1 + 1) (2 * kraftF cl a + cl.count (a + 1))
        (entriesUpTo cl a ++ entriesFor (a + 1) cl 0 (2 * kraftF cl a)) = _
    rw [show 2 * kraftF cl a + cl.count (a + 1) = kraftF cl (a + 1) from rfl,
      show entriesUpTo cl a ++ entriesFor (a + 1) cl 0 (2 * kraftF cl a)
        = entriesUpTo cl (a + 1) from rfl,
      ih (a + 1) (fun j hj1 hj2 => hbound j (by omega) (by omega)),
      show a + 1 + steps = a + (steps + 1) from by omega]

theorem buildCode_ok_inv (cl : List Nat) :
    ∀ (steps a n' : Nat) (m' : List (Nat × Nat)),
      kraftF cl a ≤ 2 ^ a →
      buildCode cl steps (a + 1) (kraftF cl a) (entriesUpTo cl a) = .ok (n', m') →
      n' = kraftF cl (a + steps) ∧ m' = entriesUpTo cl (a + steps) ∧
        ∀ j, a ≤ j → j ≤ a + steps → kraftF cl j ≤ 2 ^ j := by
  intro steps
  induction steps with
  | zero =>
    intro a n' m' ha h
    rw [buildCode] at h
    obtain ⟨h1, h2⟩ := Prod.mk.injEq .. ▸ (Except.ok.injEq .. ▸ h)
    refine ⟨by rw [← h1, Nat.add_zero], by rw [← h2, Nat.add_zero], ?_⟩
    intro j hj1 hj2
    rw [show j = a from by omega]
    exact ha
  | succ steps ih =>
    intro a n' m' ha h
    have hshift : kraftF cl a <<< 1 = 2 * kraftF cl a := by
      rw [Nat.shiftLeft_eq, pow_one, Nat.mul_comm]
    rw [buildCode, hshift] at h
    cases hAS : assignSymbols (a + 1) (1 <<< (a + 1)) cl 0 (2 * kraftF cl a)
        (entriesUpTo cl a) with
    | error e =>
      rw [hAS] at h
      exact absurd h (by simp)
    | ok p =>
      obtain ⟨n1, m1⟩ := p
      rw [hAS] at h
      replace h : buildCode cl steps (a + 1 + 1) n1 m1 = Except.ok (n', m') := h
      obtain ⟨e1, e2, e3⟩ :=
        assignSymbols_ok_inv (a + 1) cl 0 (2 * kraftF cl a) (entriesUpTo cl a) n1 m1 hAS
      have hb1 : kraftF cl (a + 1) ≤ 2 ^ (a + 1) := by
        rw [kraftF_succ]
        by_cases hcz : 0 < cl.count (a + 1)
        · have := e3 hcz
          rw [Nat.one_shiftLeft] at this
          exact this
        · have hz : cl.count (a + 1) = 0 := by omega
          rw [hz, pow_succ]
          omega
      have hp1 : n1 = kraftF cl (a + 1) := by
        rw [e1, kraftF_succ]
      have hp2 : m1 = entriesUpTo cl (a + 1) := by
        rw [e2, entriesUpTo_succ]
      rw [hp1, hp2] at h
      obtain ⟨c1, c2, c3⟩ := ih (a + 1) n' m' hb1 h
      refine ⟨by rw [c1, show a + 1 + steps = a + (steps + 1) from by omega],
        by rw [c2, show a + 1 + steps = a + (steps + 1) from by omega], ?_⟩
      intro j hj1 hj2
      by_cases hja : j = a
      · rw [hja]; exact ha
      · exact c3 j (by omega) (by omega)

theorem le_foldl_max (l : List Nat) : ∀ a, a ≤ l.foldl max a := by
  induction l with
  | nil => intro a; exact le_refl a
  | cons b rest ih =>
    intro a
    exact le_trans (le_max_left a b) (ih (max a b))

theorem mem_le_foldl_max (l : List Nat) : ∀ a x, x ∈ l → x ≤ l.foldl max a := by
  induction l with
  | nil => intro a x hx; simp at hx
  | cons b rest ih =>
    intro a x hx
    rcases List.mem_cons.mp hx with rfl | hx
    · exact le_trans (le_max_right a x) (le_foldl_max rest (max a x))
    · exact ih (max a b) x hx

theorem mem_le_maxList {cl : List Nat} {x : Nat} (hx : x ∈ cl) : x ≤ maxList cl :=
  mem_le_foldl_max cl 0 x hx

theorem foldl_max_le (l : List Nat) : ∀ a k, a ≤ k → (∀ x ∈ l, x ≤ k) →
    l.foldl max a ≤ k := by
  induction l with
  | nil => intro a k ha _; exact ha
  | cons b rest ih =>
    intro a k ha hl
    exact ih (max a b) k (max_le ha (hl b (List.mem_cons_self _ _)))
      (fun x hx => hl x (List.mem_cons_of_mem _ hx))

/-- Success inversion for the whole constructor: the dictionary is exactly
`entriesUpTo`, the final `nextcode` equals `2^max`, and all the partial
`nextcode` values stayed within range. -/
theorem init_ok_inv {L : List Int} {m : List (Nat × Nat)}
    (h : CanonicalCode.init L = .ok m) :
    ¬ L.any (fun x => x < 0) ∧ ¬ L.isEmpty ∧
    m = entriesUpTo (L.map Int.toNat) (maxList (L.map Int.toNat)) ∧
    kraftF (L.map Int.toNat) (maxList (L.map Int.toNat))
        = 2 ^ maxList (L.map Int.toNat) ∧
    (∀ j, j ≤ maxList (L.map Int.toNat) → kraftF (L.map Int.toNat) j ≤ 2 ^ j) := by
  unfold CanonicalCode.init at h
  by_cases hneg : L.any (fun x => x < 0)
  · rw [if_pos hneg] at h
    exact absurd h (by simp)
  rw [if_neg hneg] at h
  by_cases hemp : L.isEmpty
  · rw [if_pos hemp] at h
    exact absurd h (by simp)
  rw [if_neg hemp] at h
  replace h : (match buildCode (L.map Int.toNat) (maxList (L.map Int.toNat)) 1 0 [] with
    | .error e => Except.error e
    | .ok (nextcode, m0) =>
      if nextcode ≠ 1 <<< maxList (L.map Int.toNat) then Except.error CodeError.underfull
      else Except.ok m0) = Except.ok m := h
  cases hB : buildCode (L.map Int.toNat) (maxList (L.map Int.toNat)) 1 0 [] with
  | error e =>
    rw [hB] at h
    exact absurd h (by simp)
  | ok p =>
    obtain ⟨nc, m0⟩ := p
    rw [hB] at h
    replace h : (if nc ≠ 1 <<< maxList (L.map Int.toNat) then Except.error CodeError.underfull
      else Except.ok m0) = Except.ok m := h
    by_cases hnc : nc ≠ 1 <<< maxList (L.map Int.toNat)
    · rw [if_pos hnc] at h
      exact absurd h (by simp)
    · rw [if_neg hnc] at h
      have hm : m0 = m := by
        have := Except.ok.injEq .. ▸ h
        exact this
      obtain ⟨c1, c2, c3⟩ := buildCode_ok_inv (L.map Int.toNat)
        (maxList (L.map Int.toNat)) 0 nc m0 (by simp [kraftF]) hB
      rw [Nat.zero_add] at c1 c2
      have hk : kraftF (L.map Int.toNat) (maxList (L.map Int.toNat))
          = 2 ^ maxList (L.map Int.toNat) := by
        rw [← c1, not_ne_iff.mp hnc, Nat.one_shiftLeft]
      refine ⟨hneg, hemp, by rw [← hm, c2], hk, ?_⟩
      intro j hj
      exact c3 j (by omega) (by omega)

/-- Success direction for the whole constructor. -/
theorem init_ok {L : List Int} (h0 : ¬ L.any (fun x => x < 0)) (h1 : ¬ L.isEmpty)
    (h2 : ∀ j, j ≤ maxList (L.map Int.toNat) → kraftF (L.map Int.toNat) j ≤ 2 ^ j)
    (h3 : kraftF (L.map Int.toNat) (maxList (L.map Int.toNat))
      = 2 ^ maxList (L.map Int.toNat)) :
    CanonicalCode.init L
      = .ok (entriesUpTo (L.map Int.toNat) (maxList (L.map Int.toNat))) := by
  unfold CanonicalCode.init
  rw [if_neg h0, if_neg h1]
  have hbc : buildCode (L.map Int.toNat) (maxList (L.map Int.toNat)) 1 0 []
      = .ok (kraftF (L.map Int.toNat) (maxList (L.map Int.toNat)),
          entriesUpTo (L.map Int.toNat) (maxList (L.map Int.toNat))) := by
    have := buildCode_ok (L.map Int.toNat) (maxList (L.map Int.toNat)) 0
      (fun j hj1 hj2 => h2 j (by omega))
    simpa [kraftF, entriesUpTo] using this
  show (match buildCode (L.map Int.toNat) (maxList (L.map Int.toNat)) 1 0 [] with
    | .error e => Except.error e
    | .ok (nextcode, m0) =>
      if nextcode ≠ 1 <<< maxList (L.map Int.toNat) then Except.error CodeError.underfull
      else Except.ok m0) = _
  rw [hbc]
  show (if kraftF (L.map Int.toNat) (maxList (L.map Int.toNat))
      ≠ 1 <<< maxList (L.map Int.toNat) then Except.error CodeError.underfull
    else Except.ok (entriesUpTo (L.map Int.toNat) (maxList (L.map Int.toNat)))) = _
  rw [if_neg (by rw [h3, Nat.one_shiftLeft]; exact fun hne => hne rfl)]

theorem kraftF_eq_sum (cl : List Nat) :
    ∀ M, kraftF cl M = ∑ j ∈ Finset.range M, cl.count (j + 1) * 2 ^ (M - (j + 1)) := by
  intro M
  induction M with
  | zero => simp [kraftF]
  | succ M ih =>
    rw [kraftF_succ, ih, Finset.sum_range_succ, Nat.sub_self, pow_zero, mul_one,
      Finset.mul_sum]
    congr 1
    apply Finset.sum_congr rfl
    intro j hj
    rw [Finset.mem_range] at hj
    rw [show M + 1 - (j + 1) = M - (j + 1) + 1 from by omega, pow_succ]
    ring

theorem filter_sum_eq_count_sum (M : Nat) :
    ∀ (cl : List Nat), (∀ x ∈ cl, x ≤ M) →
      ((cl.filter (fun x => 0 < x)).map (fun x => 2 ^ (M - x))).sum
        = ∑ j ∈ Finset.range M, cl.count (j + 1) * 2 ^ (M - (j + 1)) := by
  intro cl
  induction cl with
  | nil => simp
  | cons x rest ih =>
    intro hle
    have hxM : x ≤ M := hle x (List.mem_cons_self _ _)
    have hrest := ih (fun y hy => hle y (List.mem_cons_of_mem _ hy))
    have hsplit : ∀ j ∈ Finset.range M,
        (x :: rest).count (j + 1) * 2 ^ (M - (j + 1))
          = rest.count (j + 1) * 2 ^ (M - (j + 1))
            + (if j + 1 = x then 2 ^ (M - (j + 1)) else 0) := by
      intro j _
      rw [List.count_cons]
      by_cases hjx : j + 1 = x
      · rw [if_pos (by simp only [beq_iff_eq]; omega), if_pos hjx]
        ring
      · rw [if_neg (by simp only [beq_iff_eq]; omega), if_neg hjx]
        ring
    rw [Finset.sum_congr rfl hsplit, Finset.sum_add_distrib, ← hrest]
    by_cases hx : 0 < x
    · rw [List.filter_cons_of_pos (by simpa using hx), List.map_cons, List.sum_cons]
      have hsum : ∑ j ∈ Finset.range M, (if j + 1 = x then 2 ^ (M - (j + 1)) else 0)
          = 2 ^ (M - x) := by
        have hrw : ∀ j ∈ Finset.range M,
            (if j + 1 = x then 2 ^ (M - (j + 1)) else 0)
              = (if j = x - 1 then 2 ^ (M - x) else 0) := by
          intro j _
          by_cases hjx : j + 1 = x
          · rw [if_pos hjx, if_pos (by omega), hjx]
          · rw [if_neg hjx, if_neg (by omega)]
        rw [Finset.sum_congr rfl hrw, Finset.sum_ite_eq' (Finset.range M) (x - 1)]
        rw [if_pos (Finset.mem_range.mpr (by omega))]
      rw [hsum]
      omega
    · have hx0 : x = 0 := by omega
      rw [List.filter_cons_of_neg (by simpa using hx)]
      have hsum : ∑ j ∈ Finset.range M, (if j + 1 = x then 2 ^ (M - (j + 1)) else 0)
          = 0 := by
        apply Finset.sum_eq_zero
        intro j _
        rw [if_neg (by omega)]
      rw [hsum]
      omega

theorem filter_map_toNat (g : Nat → Nat) :
    ∀ (L : List Int), (∀ x ∈ L, 0 ≤ x) →
      (L.filter (fun x => 0 < x)).map (fun x => g x.toNat)
        = ((L.map Int.toNat).filter (fun x => 0 < x)).map g := by
  intro L
  induction L with
  | nil => simp
  | cons x rest ih =>
    intro hnn
    have hx : 0 ≤ x := hnn x (List.mem_cons_self _ _)
    have hrest := ih (fun y hy => hnn y (List.mem_cons_of_mem _ hy))
    by_cases h0 : 0 < x
    · rw [List.map_cons, List.filter_cons_of_pos (by simpa using h0),
        List.filter_cons_of_pos (by simp; omega), List.map_cons, List.map_cons, hrest]
    · rw [List.map_cons, List.filter_cons_of_neg (by simpa using h0),
        List.filter_cons_of_neg (by simp; omega), hrest]

/-- **C3**: every code-length vector `L` accepted by the `CanonicalCode`
constructor satisfies the completeness equation
`Σ_(s : L[s] > 0) 2^(M - L[s]) = 2^M` with `M = max(L)`: accepted codes are
exactly complete, neither under-full nor over-full. -/
theorem accepted_codes_are_complete {L : List Int} {m : List (Nat × Nat)}
    (h : CanonicalCode.init L = .ok m) :
    ((L.filter (fun x => 0 < x)).map
        (fun x => 2 ^ (maxList (L.map Int.toNat) - x.toNat))).sum
      = 2 ^ maxList (L.map Int.toNat) := by
  obtain ⟨hneg, -, -, hk, -⟩ := init_ok_inv h
  have hnn : ∀ x ∈ L, 0 ≤ x := by
    intro x hx
    by_contra hlt
    exact hneg (List.any_eq_true.mpr ⟨x, hx, by simp; omega⟩)
  rw [filter_map_toNat (fun y => 2 ^ (maxList (L.map Int.toNat) - y)) L hnn,
    filter_sum_eq_count_sum (maxList (L.map Int.toNat)) (L.map Int.toNat)
      (fun y hy => mem_le_maxList hy),
    ← kraftF_eq_sum, hk]

theorem accepted_codes_are_complete_witness :
    (CanonicalCode.init [2, 2, 1, 0, 0, 0]
        = .ok (entriesUpTo [2, 2, 1, 0, 0, 0] 2)) ∧
    (([2, 2, 1, 0, 0, 0].filter (fun x : Int => 0 < x)).map
        (fun x => 2 ^ (maxList ([2, 2, 1, 0, 0, 0].map Int.toNat) - x.toNat))).sum
      = 2 ^ maxList ([2, 2, 1, 0, 0, 0].map Int.toNat) := by
  have hini : CanonicalCode.init [2, 2, 1, 0, 0, 0]
      = .ok (entriesUpTo [2, 2, 1, 0, 0, 0] 2) := by rfl
  exact ⟨hini, accepted_codes_are_complete hini⟩

/-- **C2** (counterexample): the all-zero vector `[0]` is rejected, not
accepted: `max = 0` makes the assignment loop empty, and the final check
compares `nextcode = 0` against `1 << 0 = 1`, raising the under-full
`ValueError` — so construction does not succeed with an empty code. -/
theorem all_zero_rejected_counterexample :
    CanonicalCode.init [0] = .error .underfull := by rfl

/-- **C2** (amended): for every nonempty code-length vector whose entries are
all zero (so `M = max(L) = 0`), the constructor raises the under-full error
rather than producing an empty code: the final check compares `nextcode = 0`
with `1 << 0 = 1`.  Callers never build such a code; the absent distance code
is represented as `None` instead. -/
theorem all_zero_lengths_underfull (L : List Int) (hne : L ≠ [])
    (hz : ∀ x ∈ L, x = 0) :
    CanonicalCode.init L = .error .underfull := by
  have h0 : ¬ L.any (fun x => x < 0) = true := by
    rw [List.any_eq_true]
    push_neg
    intro x hx
    rw [hz x hx]
    simp
  have h1 : ¬ L.isEmpty = true := by
    cases L with
    | nil => exact absurd rfl hne
    | cons a l => simp
  have hmax : maxList (L.map Int.toNat) = 0 := by
    have := foldl_max_le (L.map Int.toNat) 0 0 le_rfl (fun x hx => by
      obtain ⟨y, hy, rfl⟩ := List.mem_map.mp hx
      rw [hz y hy]
      exact le_refl 0)
    exact Nat.le_zero.mp this
  unfold CanonicalCode.init
  rw [if_neg h0, if_neg h1]
  show (match buildCode (L.map Int.toNat) (maxList (L.map Int.toNat)) 1 0 [] with
    | .error e => Except.error e
    | .ok (nextcode, m0) =>
      if nextcode ≠ 1 <<< maxList (L.map Int.toNat) then Except.error CodeError.underfull
      else Except.ok m0) = _
  rw [hmax]
  rfl

theorem all_zero_lengths_underfull_witness :
    CanonicalCode.init [0, 0, 0] = .error .underfull :=
  all_zero_lengths_underfull [0, 0, 0] (by simp) (by decide)

/-! ### Characterising the constructed dictionary -/

theorem key_as_add {v codelength : Nat} (h : v < 2 ^ codelength) :
    (1 <<< codelength) ||| v = 2 ^ codelength + v := by
  rw [Nat.lor_comm, lor_shiftLeft_eq_add 1 codelength h, Nat.add_comm,
    Nat.one_shiftLeft]

theorem key_inj {i i' v v' : Nat} (hv : v < 2 ^ i) (hv' : v' < 2 ^ i')
    (h : 2 ^ i + v = 2 ^ i' + v') : i = i' ∧ v = v' := by
  rcases Nat.lt_trichotomy i i' with hlt | heq | hgt
  · have h1 : 2 ^ i + v < 2 ^ (i + 1) := by
      rw [pow_succ]
      omega
    have h2 : 2 ^ (i + 1) ≤ 2 ^ i' := Nat.pow_le_pow_right (by norm_num) (by omega)
    omega
  · constructor
    · exact heq
    · rw [heq] at h
      omega
  · have h1 : 2 ^ i' + v' < 2 ^ (i' + 1) := by
      rw [pow_succ]
      omega
    have h2 : 2 ^ (i' + 1) ≤ 2 ^ i := Nat.pow_le_pow_right (by norm_num) (by omega)
    omega

theorem mem_entriesFor {codelength : Nat} :
    ∀ (r : List Nat) (s n k sym : Nat),
      (k, sym) ∈ entriesFor codelength r s n →
      ∃ v, k = (1 <<< codelength) ||| v ∧ n ≤ v ∧ v < n + r.count codelength := by
  intro r
  induction r with
  | nil => intro s n k sym h; simp [entriesFor] at h
  | cons c rest ih =>
    intro s n k sym h
    by_cases hc : c = codelength
    · rw [entriesFor, if_pos hc] at h
      have hcount : (c :: rest).count codelength = rest.count codelength + 1 := by
        simp [List.count_cons, hc]
      rcases List.mem_cons.mp h with hhead | htail
      · obtain ⟨hk, -⟩ := Prod.mk.injEq .. ▸ hhead
        exact ⟨n, hk, le_refl n, by omega⟩
      · obtain ⟨v, hv1, hv2, hv3⟩ := ih (s + 1) (n + 1) k sym htail
        exact ⟨v, hv1, by omega, by omega⟩
    · rw [entriesFor, if_neg hc] at h
      have hcount : (c :: rest).count codelength = rest.count codelength := by
        simp [List.count_cons, hc]
      obtain ⟨v, hv1, hv2, hv3⟩ := ih (s + 1) n k sym h
      exact ⟨v, hv1, hv2, by omega⟩

theorem entriesFor_coverage {codelength : Nat} :
    ∀ (r : List Nat) (s n v : Nat), n ≤ v → v < n + r.count codelength →
      ∃ sym, ((1 <<< codelength) ||| v, sym) ∈ entriesFor codelength r s n := by
  intro r
  induction r with
  | nil =>
    intro s n v h1 h2
    simp at h2
    omega
  | cons c rest ih =>
    intro s n v h1 h2
    by_cases hc : c = codelength
    · rw [entriesFor, if_pos hc]
      have hcount : (c :: rest).count codelength = rest.count codelength + 1 := by
        simp [List.count_cons, hc]
      by_cases hvn : v = n
      · exact ⟨s, by rw [hvn]; exact List.mem_cons_self _ _⟩
      · obtain ⟨sym, hmem⟩ := ih (s + 1) (n + 1) v (by omega) (by omega)
        exact ⟨sym, List.mem_cons_of_mem _ hmem⟩
    · rw [entriesFor, if_neg hc]
      have hcount : (c :: rest).count codelength = rest.count codelength := by
        simp [List.count_cons, hc]
      exact ih (s + 1) n v h1 (by omega)

theorem entriesFor_symbol {codelength : Nat} :
    ∀ (r : List Nat) (idx s n : Nat), idx < r.length → r.getD idx 0 = codelength →
      ((1 <<< codelength) ||| (n + (r.take idx).count codelength), s + idx)
        ∈ entriesFor codelength r s n := by
  intro r
  induction r with
  | nil => intro idx s n h _; simp at h
  | cons c rest ih =>
    intro idx s n hidx hget
    match idx with
    | 0 =>
      have hc : c = codelength := by simpa using hget
      rw [entriesFor, if_pos hc]
      have : (List.take 0 (c :: rest)).count codelength = 0 := by simp
      rw [this, Nat.add_zero, Nat.add_zero]
      exact List.mem_cons_self _ _
    | idx + 1 =>
      have hget' : rest.getD idx 0 = codelength := by simpa using hget
      have hidx' : idx < rest.length := by simpa using hidx
      by_cases hc : c = codelength
      · rw [entriesFor, if_pos hc]
        apply List.mem_cons_of_mem
        have := ih idx (s + 1) (n + 1) hidx' hget'
        have hcnt : (List.take (idx + 1) (c :: rest)).count codelength
            = (List.take idx rest).count codelength + 1 := by
          rw [List.take_succ_cons, List.count_cons]
          simp [hc]
        rw [hcnt, show n + ((List.take idx rest).count codelength + 1)
          = n + 1 + (List.take idx rest).count codelength from by omega,
          show s + (idx + 1) = s + 1 + idx from by omega]
        exact this
      · rw [entriesFor, if_neg hc]
        have := ih idx (s + 1) n hidx' hget'
        have hcnt : (List.take (idx + 1) (c :: rest)).count codelength
            = (List.take idx rest).count codelength := by
          rw [List.take_succ_cons, List.count_cons]
          simp [hc]
        rw [hcnt, show s + (idx + 1) = s + 1 + idx from by omega]
        exact this

theorem mem_entriesUpTo {cl : List Nat} :
    ∀ (J : Nat) (k sym : Nat), (k, sym) ∈ entriesUpTo cl J →
      ∃ i v, 1 ≤ i ∧ i ≤ J ∧ 2 * kraftF cl (i - 1) ≤ v ∧ v < kraftF cl i ∧
        k = (1 <<< i) ||| v := by
  intro J
  induction J with
  | zero => intro k sym h; simp [entriesUpTo] at h
  | succ J ih =>
    intro k sym h
    rw [entriesUpTo_succ, List.mem_append] at h
    rcases h with h | h
    · obtain ⟨i, v, h1, h2, h3, h4, h5⟩ := ih k sym h
      exact ⟨i, v, h1, by omega, h3, h4, h5⟩
    · obtain ⟨v, hv1, hv2, hv3⟩ := @mem_entriesFor (J + 1) cl 0 (2 * kraftF cl J) k sym h
      refine ⟨J + 1, v, by omega, le_refl _, by simpa using hv2, ?_, hv1⟩
      rw [kraftF_succ]
      omega

theorem entriesUpTo_coverage {cl : List Nat} :
    ∀ (J i v : Nat), 1 ≤ i → i ≤ J → 2 * kraftF cl (i - 1) ≤ v → v < kraftF cl i →
      ∃ sym, ((1 <<< i) ||| v, sym) ∈ entriesUpTo cl J := by
  intro J
  induction J with
  | zero => intro i v h1 h2 _ _; omega
  | succ J ih =>
    intro i v h1 h2 h3 h4
    rw [entriesUpTo_succ]
    by_cases hiJ : i = J + 1
    · subst hiJ
      rw [kraftF_succ] at h4
      obtain ⟨sym, hmem⟩ := @entriesFor_coverage (J + 1) cl 0 (2 * kraftF cl J) v
        (by simpa using h3) (by omega)
      exact ⟨sym, List.mem_append_right _ hmem⟩
    · obtain ⟨sym, hmem⟩ := ih i v h1 (by omega) h3 h4
      exact ⟨sym, List.mem_append_left _ hmem⟩

theorem entriesUpTo_of_block {cl : List Nat} {codelength : Nat} {p : Nat × Nat} :
    ∀ (J : Nat), 1 ≤ codelength → codelength ≤ J →
      p ∈ entriesFor codelength cl 0 (2 * kraftF cl (codelength - 1)) →
      p ∈ entriesUpTo cl J := by
  intro J
  induction J with
  | zero => intro h1 h2 _; omega
  | succ J ih =>
    intro h1 h2 hmem
    rw [entriesUpTo_succ]
    by_cases hiJ : codelength = J + 1
    · apply List.mem_append_right
      subst hiJ
      simpa using hmem
    · exact List.mem_append_left _ (ih h1 (by omega) hmem)

theorem lookup_isSome_of_mem {l : List (Nat × Nat)} {k v : Nat} (h : (k, v) ∈ l) :
    ∃ w, List.lookup k l = some w := by
  have : (l.lookup k).isSome := List.lookup_isSome_iff.mpr ⟨(k, v), h, by simp⟩
  exact Option.isSome_iff_exists.mp this

theorem lookup_eq_none_of_not_key {l : List (Nat × Nat)} {k : Nat}
    (h : ∀ p ∈ l, p.1 ≠ k) : List.lookup k l = none :=
  List.lookup_eq_none_iff.mpr (fun p hp => by
    have := h p hp
    simp only [bne_iff_ne]
    omega)

theorem lookup_eq_of_mem_nodup :
    ∀ {l : List (Nat × Nat)} {k v : Nat}, (l.map Prod.fst).Nodup → (k, v) ∈ l →
      List.lookup k l = some v := by
  intro l
  induction l with
  | nil => intro k v _ h; simp at h
  | cons p rest ih =>
    intro k v hnd h
    obtain ⟨k', v'⟩ := p
    rw [List.map_cons, List.nodup_cons] at hnd
    rcases List.mem_cons.mp h with hhead | htail
    · obtain ⟨h1, h2⟩ := Prod.mk.injEq .. ▸ hhead
      rw [List.lookup_cons, show (k == k') = true from by simp [h1], h2]
    · have hk : k ≠ k' := by
        intro hkp
        apply hnd.1
        have : (k, v).1 ∈ (List.map Prod.fst rest) := List.mem_map_of_mem Prod.fst htail
        simpa [hkp] using this
      rw [List.lookup_cons, show (k == k') = false from by simp [hk]]
      exact ih hnd.2 htail

theorem entriesFor_keys_nodup {codelength : Nat} :
    ∀ (r : List Nat) (s n : Nat), n + r.count codelength ≤ 2 ^ codelength →
      ((entriesFor codelength r s n).map Prod.fst).Nodup := by
  intro r
  induction r with
  | nil => intro s n _; simp [entriesFor]
  | cons c rest ih =>
    intro s n hle
    by_cases hc : c = codelength
    · have hcount : (c :: rest).count codelength = rest.count codelength + 1 := by
        simp [List.count_cons, hc]
      rw [hcount] at hle
      rw [entriesFor, if_pos hc, List.map_cons, List.nodup_cons]
      constructor
      · intro hmem
        obtain ⟨⟨k, sym⟩, hpmem, hk⟩ := List.mem_map.mp hmem
        obtain ⟨v, hv1, hv2, hv3⟩ :=
          mem_entriesFor rest (s + 1) (n + 1) k sym hpmem
        have e1 : (1 <<< codelength) ||| v = 2 ^ codelength + v :=
          key_as_add (by omega)
        have e2 : (1 <<< codelength) ||| n = 2 ^ codelength + n :=
          key_as_add (by omega)
        have : k = (1 <<< codelength) ||| n := hk
        rw [hv1, e1, e2] at this
        omega
      · exact ih (s + 1) (n + 1) (by omega)
    · have hcount : (c :: rest).count codelength = rest.count codelength := by
        simp [List.count_cons, hc]
      rw [hcount] at hle
      rw [entriesFor, if_neg hc]
      exact ih (s + 1) n hle

theorem entriesUpTo_keys_nodup {cl : List Nat} :
    ∀ (J : Nat), (∀ j, j ≤ J → kraftF cl j ≤ 2 ^ j) →
      ((entriesUpTo cl J).map Prod.fst).Nodup := by
  intro J
  induction J with
  | zero => intro _; simp [entriesUpTo]
  | succ J ih =>
    intro hb
    rw [entriesUpTo_succ, List.map_append]
    apply List.Nodup.append
    · exact ih (fun j hj => hb j (by omega))
    · apply entriesFor_keys_nodup cl 0 (2 * kraftF cl J)
      have := hb (J + 1) (le_refl _)
      rw [kraftF_succ] at this
      omega
    · intro k hkl hkr
      obtain ⟨⟨kl, syml⟩, hlm, hlk⟩ := List.mem_map.mp hkl
      obtain ⟨⟨kr, symr⟩, hrm, hrk⟩ := List.mem_map.mp hkr
      obtain ⟨i, w, h1, h2, h3, h4, h5⟩ := mem_entriesUpTo J kl syml hlm
      obtain ⟨w', hw1, hw2, hw3⟩ :=
        @mem_entriesFor (J + 1) cl 0 (2 * kraftF cl J) kr symr hrm
      have hwlt : w < 2 ^ i := by
        have := hb i (by omega)
        omega
      have hwlt' : w' < 2 ^ (J + 1) := by
        have h6 := hb (J + 1) (le_refl _)
        rw [kraftF_succ] at h6
        omega
      have hlk' : kl = k := hlk
      have hrk' : kr = k := hrk
      have heq : 2 ^ i + w = 2 ^ (J + 1) + w' := by
        rw [← key_as_add hwlt, ← key_as_add hwlt', ← h5, ← hw1, hlk', hrk']
      obtain ⟨hii, -⟩ := key_inj hwlt hwlt' heq
      omega

theorem lookup_some_of_interval {cl : List Nat} {M : Nat}
    (hb : ∀ j, j ≤ M → kraftF cl j ≤ 2 ^ j) {j v : Nat}
    (hj1 : 1 ≤ j) (hj2 : j ≤ M) (h3 : 2 * kraftF cl (j - 1) ≤ v)
    (h4 : v < kraftF cl j) :
    ∃ sym, List.lookup (2 ^ j + v) (entriesUpTo cl M) = some sym := by
  obtain ⟨sym, hmem⟩ := entriesUpTo_coverage M j v hj1 hj2 h3 h4
  rw [key_as_add (by have := hb j hj2; omega)] at hmem
  exact lookup_isSome_of_mem hmem

theorem lookup_none_of_ge {cl : List Nat} {M : Nat}
    (hb : ∀ j, j ≤ M → kraftF cl j ≤ 2 ^ j) {j v : Nat}
    (hv : v < 2 ^ j) (hge : kraftF cl j ≤ v) :
    List.lookup (2 ^ j + v) (entriesUpTo cl M) = none := by
  apply lookup_eq_none_of_not_key
  intro p hp hkey
  obtain ⟨k, sym⟩ := p
  obtain ⟨i, w, h1, h2, h3, h4, h5⟩ := mem_entriesUpTo M k sym hp
  have hwlt : w < 2 ^ i := by
    have := hb i h2
    omega
  have heq : 2 ^ i + w = 2 ^ j + v := by
    rw [← key_as_add hwlt, ← h5]
    exact hkey
  obtain ⟨hij, hwv⟩ := key_inj hwlt hv heq
  subst hij
  subst hwv
  omega

/-! ### `decode_next_symbol` -/

/-- Loop of `decode_next_symbol`: accumulate one bit at a time on the right of
`codebits` (which starts at the 1 tag) until the dictionary contains the key.
The source's `while True` loop carries explicit fuel here; the termination
theorem shows fuel `max(codelengths)` suffices.  The source's
`dict.get(codebits, -1) != -1` test is modelled by `List.lookup` (symbols are
list indices, so the `-1` sentinel never collides with a stored value). -/
def decodeNextSymbolGo (m : List (Nat × Nat)) : Nat → Nat → BitInputStream →
    Except DeflateError (Nat × BitInputStream)
  | 0, _, _ => .error .outOfFuel
  | fuel + 1, codebits, s =>
    match s.read_uint 1 with
    | .error e => .error e
    | .ok (bit, s') =>
      match List.lookup (codebits <<< 1 ||| bit) m with
      | some sym => .ok (sym, s')
      | none => decodeNextSymbolGo m fuel (codebits <<< 1 ||| bit) s'

/-- `decode_next_symbol(inp)`, with explicit fuel. -/
def CanonicalCode.decode_next_symbol (m : List (Nat × Nat)) (s : BitInputStream)
    (fuel : Nat) : Except DeflateError (Nat × BitInputStream) :=
  decodeNextSymbolGo m fuel 1 s

/-- Reading a single bit through `read_uint 1`. -/
theorem read_uint_one {s : BitInputStream} {x : Nat} {rest : List Nat}
    (hwf : s.WF) (hbits : s.bitsOf = x :: rest) :
    ∃ t, s.read_uint (1 : Int) = .ok (x, t) ∧ t.WF ∧ t.bitsOf = rest := by
  obtain ⟨t, hok, hwt, hbt⟩ := read_uint_ok 1 hwf (by rw [hbits]; simp)
  refine ⟨t, ?_, hwt, by rw [hbt, hbits, List.drop_one, List.tail_cons]⟩
  rw [show ((1 : Nat) : Int) = (1 : Int) from rfl] at hok
  rw [hok, hbits]
  show Except.ok (packLE [x], t) = _
  rw [show packLE [x] = x from by simp [packLE]]

/-- One decoding step: shifting a bit `b ≤ 1` into `codebits = 2^j + v` gives
`2^(j+1) + (2v + b)`. -/
theorem codebits_step {j v b : Nat} (_hv : v < 2 ^ j) (hb : b ≤ 1) :
    (2 ^ j + v) <<< 1 ||| b = 2 ^ (j + 1) + (2 * v + b) := by
  have h1 : (2 ^ j + v) <<< 1 = (2 ^ j + v) * 2 := by
    rw [Nat.shiftLeft_eq, pow_one]
  have h2 : b ||| ((2 ^ j + v) <<< 1) = b + (2 ^ j + v) <<< 1 :=
    lor_shiftLeft_eq_add (2 ^ j + v) 1 (by omega)
  rw [Nat.lor_comm, h2, h1, pow_succ]
  ring

theorem decodeGo_terminates {cl : List Nat} {M : Nat}
    (hb : ∀ j, j ≤ M → kraftF cl j ≤ 2 ^ j) (hcomp : kraftF cl M = 2 ^ M) :
    ∀ (f j v : Nat) (s : BitInputStream), s.WF → j + f = M → v < 2 ^ j →
      kraftF cl j ≤ v →
      (∃ sym s' t, decodeNextSymbolGo (entriesUpTo cl M) f (2 ^ j + v) s
          = .ok (sym, s') ∧ s'.WF ∧ t ≤ f ∧ s'.bitsOf = s.bitsOf.drop t ∧
          ∃ k, List.lookup k (entriesUpTo cl M) = some sym)
      ∨ decodeNextSymbolGo (entriesUpTo cl M) f (2 ^ j + v) s
          = .error .unexpectedEnd := by
  intro f
  induction f with
  | zero =>
    intro j v s _ hjf hv hge
    rw [Nat.add_zero] at hjf
    subst hjf
    rw [hcomp] at hge
    omega
  | succ f ih =>
    intro j v s hwf hjf hv hge
    match hbits : s.bitsOf with
    | [] =>
      right
      have heof := read_uint_eof 1 hwf (by rw [hbits]; simp)
      rw [show ((1 : Nat) : Int) = (1 : Int) from rfl] at heof
      rw [decodeNextSymbolGo, heof]
    | b :: rest =>
      obtain ⟨t, hok, hwt, hbt⟩ := read_uint_one hwf hbits
      have hble : b ≤ 1 := bitsOf_le_one (by rw [hbits]; exact List.mem_cons_self _ _)
      have hstep : (2 ^ j + v) <<< 1 ||| b = 2 ^ (j + 1) + (2 * v + b) :=
        codebits_step hv hble
      have hv' : 2 * v + b < 2 ^ (j + 1) := by
        rw [pow_succ]
        omega
      have hge' : 2 * kraftF cl j ≤ 2 * v + b := by omega
      have hunfold : decodeNextSymbolGo (entriesUpTo cl M) (f + 1) (2 ^ j + v) s
          = (match List.lookup (2 ^ (j + 1) + (2 * v + b)) (entriesUpTo cl M) with
            | some sym => Except.ok (sym, t)
            | none => decodeNextSymbolGo (entriesUpTo cl M) f
                (2 ^ (j + 1) + (2 * v + b)) t) := by
        rw [decodeNextSymbolGo, hok]
        show (match List.lookup ((2 ^ j + v) <<< 1 ||| b) (entriesUpTo cl M) with
          | some sym => Except.ok (sym, t)
          | none => decodeNextSymbolGo (entriesUpTo cl M) f
              ((2 ^ j + v) <<< 1 ||| b) t) = _
        rw [hstep]
      by_cases hcase : 2 * v + b < kraftF cl (j + 1)
      · obtain ⟨sym, hlk⟩ := lookup_some_of_interval hb (by omega) (by omega)
          (by simpa using hge') hcase
        left
        refine ⟨sym, t, 1, ?_, hwt, by omega, by simp [hbt, hbits], ?_⟩
        · rw [hunfold, hlk]
        · exact ⟨2 ^ (j + 1) + (2 * v + b), hlk⟩
      · have hnone : List.lookup (2 ^ (j + 1) + (2 * v + b)) (entriesUpTo cl M)
            = none := lookup_none_of_ge hb hv' (by omega)
        rw [hnone] at hunfold
        rcases ih (j + 1) (2 * v + b) t hwt (by omega) hv' (by omega) with
          ⟨sym, s', tt, hd, hwfs, htt, hbits', hreg⟩ | herr
        · left
          refine ⟨sym, s', tt + 1, ?_, hwfs, by omega, ?_, hreg⟩
          · rw [hunfold]
            exact hd
          · rw [hbits', hbt, List.drop_succ_cons]
        · right
          rw [hunfold]
          exact herr

/-- **C9**: for every successfully constructed `CanonicalCode` and every bit
source, `decode_next_symbol` terminates after consuming at most
`M = max(codelengths)` bits: with fuel `M` (one loop iteration, hence one bit,
per unit) it never runs out — within `M` bits it either matches a registered
code and returns its symbol, or the bit source raises `unexpectedEnd`. -/
theorem decode_terminates_within_max {L : List Int} {m : List (Nat × Nat)}
    (h : CanonicalCode.init L = .ok m) (s : BitInputStream) (hwf : s.WF) :
    (∃ sym s' t, CanonicalCode.decode_next_symbol m s (maxList (L.map Int.toNat))
        = .ok (sym, s') ∧ t ≤ maxList (L.map Int.toNat) ∧
        s'.bitsOf = s.bitsOf.drop t ∧ ∃ k, List.lookup k m = some sym)
    ∨ CanonicalCode.decode_next_symbol m s (maxList (L.map Int.toNat))
        = .error .unexpectedEnd := by
  obtain ⟨-, -, hm, hcomp, hb⟩ := init_ok_inv h
  subst hm
  have hrun := decodeGo_terminates hb hcomp (maxList (L.map Int.toNat)) 0 0 s hwf
    (by omega) (by norm_num) (by simp [kraftF])
  rw [CanonicalCode.decode_next_symbol, show (1 : Nat) = 2 ^ 0 + 0 from rfl]
  rcases hrun with ⟨sym, s', t, hd, hwfs, htt, hbits, hreg⟩ | herr
  · exact Or.inl ⟨sym, s', t, hd, htt, hbits, hreg⟩
  · exact Or.inr herr

theorem decode_terminates_within_max_witness :
    (∃ sym s' t, CanonicalCode.decode_next_symbol [(2, 0), (3, 1)] ⟨[0], 0, 0⟩
        (maxList ([1, 1].map Int.toNat)) = .ok (sym, s') ∧
        t ≤ maxList ([1, 1].map Int.toNat) ∧
        s'.bitsOf = (BitInputStream.bitsOf ⟨[0], 0, 0⟩).drop t ∧
        ∃ k, List.lookup k [(2, 0), (3, 1)] = some sym)
    ∨ CanonicalCode.decode_next_symbol [(2, 0), (3, 1)] ⟨[0], 0, 0⟩
        (maxList ([1, 1].map Int.toNat)) = .error .unexpectedEnd :=
  decode_terminates_within_max
    (show CanonicalCode.init [1, 1] = .ok [(2, 0), (3, 1)] from by rfl)
    ⟨[0], 0, 0⟩ ⟨by norm_num, Or.inr (by norm_num), fun _ => rfl, by decide⟩

theorem kraftF_mul_le (cl : List Nat) :
    ∀ (b a : Nat), a ≤ b → kraftF cl a * 2 ^ (b - a) ≤ kraftF cl b := by
  intro b
  induction b with
  | zero =>
    intro a ha
    rw [Nat.le_zero.mp ha]
    simp
  | succ b ih =>
    intro a ha
    by_cases hab : a = b + 1
    · rw [hab, Nat.sub_self, pow_zero, mul_one]
    · have h1 := ih a (by omega)
      have h2 : b + 1 - a = (b - a) + 1 := by omega
      rw [h2, pow_succ, kraftF_succ]
      have : kraftF cl a * (2 ^ (b - a) * 2) = (kraftF cl a * 2 ^ (b - a)) * 2 := by ring
      rw [this]
      omega

theorem count_take_lt {cl : List Nat} {sIdx ℓv : Nat} (hs : sIdx < cl.length)
    (hv : cl.getD sIdx 0 = ℓv) : (cl.take sIdx).count ℓv < cl.count ℓv := by
  have hsplit : cl = cl.take sIdx ++ cl.drop sIdx := (List.take_append_drop _ _).symm
  have hdrop : cl.drop sIdx = cl[sIdx] :: cl.drop (sIdx + 1) :=
    List.drop_eq_getElem_cons hs
  have hget : cl[sIdx] = ℓv := by
    rw [← hv, List.getD_eq_getElem?_getD, List.getElem?_eq_getElem hs]
    rfl
  calc (cl.take sIdx).count ℓv
      < (cl.take sIdx).count ℓv + ((cl.drop (sIdx + 1)).count ℓv + 1) := by omega
    _ = (cl.take sIdx ++ cl.drop sIdx).count ℓv := by
        rw [List.count_append, hdrop, hget, List.count_cons]
        simp
    _ = cl.count ℓv := by rw [← hsplit]

theorem getD_map_toNat (L : List Int) (i : Nat) (h : i < L.length) :
    (L.map Int.toNat).getD i 0 = (L.getD i 0).toNat := by
  rw [List.getD_eq_getElem?_getD, List.getD_eq_getElem?_getD, List.getElem?_map,
    List.getElem?_eq_getElem h]
  rfl

theorem getD_mem_of_lt {cl : List Nat} {i : Nat} (h : i < cl.length) :
    cl.getD i 0 ∈ cl := by
  rw [List.getD_eq_getElem?_getD, List.getElem?_eq_getElem h]
  exact List.getElem_mem h

/-- The code bits of a code value of the given length, most significant bit
first — the order in which `decode_next_symbol` consumes them. -/
def codeBitsMSB (len code : Nat) : List Nat :=
  (List.range len).map (fun i => (code >>> (len - 1 - i)) &&& 1)

theorem shiftRight_split (code nb : Nat) :
    code >>> nb = 2 * (code >>> (nb + 1)) + ((code >>> nb) &&& 1) := by
  have h1 : code >>> (nb + 1) = (code >>> nb) / 2 := Nat.shiftRight_succ code nb ▸ rfl
  have h2 : (code >>> nb) &&& 1 = (code >>> nb) % 2 := Nat.and_one_is_mod _
  omega

theorem decodeGo_feed {cl : List Nat} {M : Nat}
    (hb : ∀ j, j ≤ M → kraftF cl j ≤ 2 ^ j)
    {codelength code sIdx : Nat}
    (hl1 : 1 ≤ codelength) (hlM : codelength ≤ M)
    (hlo : 2 * kraftF cl (codelength - 1) ≤ code)
    (hhi : code < kraftF cl codelength)
    (hlk : List.lookup (2 ^ codelength + code) (entriesUpTo cl M) = some sIdx) :
    ∀ (nb j f : Nat) (s : BitInputStream) (rest : List Nat), s.WF →
      1 ≤ nb → j + nb = codelength → nb ≤ f →
      s.bitsOf = (List.range nb).map (fun i => (code >>> (nb - 1 - i)) &&& 1) ++ rest →
      ∃ s', decodeNextSymbolGo (entriesUpTo cl M) f (2 ^ j + code >>> nb) s
          = .ok (sIdx, s') ∧ s'.WF ∧ s'.bitsOf = rest := by
  have hcode2 : code < 2 ^ codelength := by
    have := hb codelength hlM
    omega
  intro nb
  induction nb with
  | zero => intro j f s rest _ h1 _ _ _; omega
  | succ nb ih =>
    intro j f s rest hwf _ hsum hfuel hbits
    obtain ⟨ff, rfl⟩ : ∃ ff, f = ff + 1 := ⟨f - 1, by omega⟩
    have e2 : List.map ((fun i => (code >>> (nb + 1 - 1 - i)) &&& 1) ∘ Nat.succ)
        (List.range nb) = List.map (fun i => (code >>> (nb - 1 - i)) &&& 1)
        (List.range nb) := by
      apply List.map_congr_left
      intro a _
      show (code >>> (nb + 1 - 1 - (a + 1))) &&& 1 = (code >>> (nb - 1 - a)) &&& 1
      have harg : nb + 1 - 1 - (a + 1) = nb - 1 - a := by omega
      rw [harg]
    have hhead : s.bitsOf = ((code >>> nb) &&& 1) ::
        ((List.range nb).map (fun i => (code >>> (nb - 1 - i)) &&& 1) ++ rest) := by
      rw [hbits, List.range_succ_eq_map, List.map_cons, List.map_map, List.cons_append, e2]
      norm_num
    obtain ⟨t, hok, hwt, hbt⟩ := read_uint_one hwf hhead
    have hble : (code >>> nb) &&& 1 ≤ 1 := Nat.and_le_right
    have hshift_lt : code >>> (nb + 1) < 2 ^ j := by
      rw [Nat.shiftRight_eq_div_pow]
      apply Nat.div_lt_of_lt_mul
      calc code < 2 ^ codelength := hcode2
        _ = 2 ^ j * 2 ^ (nb + 1) := by rw [← pow_add]; congr 1; omega
        _ = 2 ^ (nb + 1) * 2 ^ j := by ring
    have hstep : (2 ^ j + code >>> (nb + 1)) <<< 1 ||| ((code >>> nb) &&& 1)
        = 2 ^ (j + 1) + code >>> nb := by
      rw [codebits_step hshift_lt hble, ← shiftRight_split]
    have hunfold : decodeNextSymbolGo (entriesUpTo cl M) (ff + 1)
          (2 ^ j + code >>> (nb + 1)) s
        = (match List.lookup (2 ^ (j + 1) + code >>> nb) (entriesUpTo cl M) with
          | some sym => Except.ok (sym, t)
          | none => decodeNextSymbolGo (entriesUpTo cl M) ff
              (2 ^ (j + 1) + code >>> nb) t) := by
      rw [decodeNextSymbolGo, hok]
      show (match List.lookup ((2 ^ j + code >>> (nb + 1)) <<< 1
            ||| ((code >>> nb) &&& 1)) (entriesUpTo cl M) with
        | some sym => Except.ok (sym, t)
        | none => decodeNextSymbolGo (entriesUpTo cl M) ff
            ((2 ^ j + code >>> (nb + 1)) <<< 1 ||| ((code >>> nb) &&& 1)) t) = _
      rw [hstep]
    by_cases hnb0 : nb = 0
    · subst hnb0
      have hjl : j + 1 = codelength := by omega
      have hcode0 : code >>> 0 = code := Nat.shiftRight_zero
      refine ⟨t, ?_, hwt, by simpa using hbt⟩
      rw [hunfold, hcode0, hjl, hlk]
    · have hnb1 : 1 ≤ nb := by omega
      have hge : kraftF cl (j + 1) ≤ code >>> nb := by
        have hk1 : kraftF cl (j + 1) * 2 ^ (codelength - 1 - (j + 1))
            ≤ kraftF cl (codelength - 1) := kraftF_mul_le cl (codelength - 1) (j + 1) (by omega)
        have hk2 : codelength - 1 - (j + 1) = nb - 1 := by omega
        rw [Nat.shiftRight_eq_div_pow, Nat.le_div_iff_mul_le (Nat.two_pow_pos nb)]
        calc kraftF cl (j + 1) * 2 ^ nb
            = (kraftF cl (j + 1) * 2 ^ (nb - 1)) * 2 := by
              rw [mul_assoc, ← pow_succ]
              congr 2
              omega
          _ ≤ kraftF cl (codelength - 1) * 2 := by
              rw [hk2] at hk1
              omega
          _ ≤ code := by omega
      have hlt : code >>> nb < 2 ^ (j + 1) := by
        rw [Nat.shiftRight_eq_div_pow]
        apply Nat.div_lt_of_lt_mul
        calc code < 2 ^ codelength := hcode2
          _ = 2 ^ (j + 1) * 2 ^ nb := by rw [← pow_add]; congr 1; omega
          _ = 2 ^ nb * 2 ^ (j + 1) := by ring
      have hnone : List.lookup (2 ^ (j + 1) + code >>> nb) (entriesUpTo cl M)
          = none := lookup_none_of_ge hb hlt hge
      rw [hnone] at hunfold
      obtain ⟨s', hdec, hwfs, hbits'⟩ := ih (j + 1) ff t rest hwt hnb1 (by omega)
        (by omega) hbt
      refine ⟨s', ?_, hwfs, hbits'⟩
      rw [hunfold]
      exact hdec

/-- **C1**: for every code-length vector accepted by the `CanonicalCode`
constructor and every symbol `sIdx` with `codelengths[sIdx] > 0`, the
constructor assigned `sIdx` a canonical code value `code` (registered in the
dictionary under the 1-tagged key), and feeding exactly those code bits, most
significant bit first, into `decode_next_symbol` returns `sIdx`, consuming
exactly the code's bits. -/
theorem canonical_decode_roundtrip {L : List Int} {m : List (Nat × Nat)}
    (h : CanonicalCode.init L = .ok m) (sIdx : Nat) (hs : sIdx < L.length)
    (hpos : 0 < L.getD sIdx 0) :
    ∃ code, code < 2 ^ (L.getD sIdx 0).toNat ∧
      List.lookup (2 ^ (L.getD sIdx 0).toNat + code) m = some sIdx ∧
      ∀ (s : BitInputStream) (rest : List Nat), s.WF →
        s.bitsOf = codeBitsMSB (L.getD sIdx 0).toNat code ++ rest →
        ∃ s', CanonicalCode.decode_next_symbol m s (maxList (L.map Int.toNat))
            = .ok (sIdx, s') ∧ s'.WF ∧ s'.bitsOf = rest := by
  obtain ⟨-, -, hm, hcomp, hbound⟩ := init_ok_inv h
  subst hm
  have hlen : sIdx < (L.map Int.toNat).length := by simpa using hs
  have hget : (L.map Int.toNat).getD sIdx 0 = (L.getD sIdx 0).toNat :=
    getD_map_toNat L sIdx hs
  have hl1 : 1 ≤ (L.getD sIdx 0).toNat := by omega
  have hlM : (L.getD sIdx 0).toNat ≤ maxList (L.map Int.toNat) := by
    rw [← hget]
    exact mem_le_maxList (getD_mem_of_lt hlen)
  have hcnt : ((L.map Int.toNat).take sIdx).count (L.getD sIdx 0).toNat
      < (L.map Int.toNat).count (L.getD sIdx 0).toNat := count_take_lt hlen hget
  have hkf := kraftF_succ (L.map Int.toNat) ((L.getD sIdx 0).toNat - 1)
  rw [show (L.getD sIdx 0).toNat - 1 + 1 = (L.getD sIdx 0).toNat from by omega] at hkf
  have hhi : 2 * kraftF (L.map Int.toNat) ((L.getD sIdx 0).toNat - 1)
        + ((L.map Int.toNat).take sIdx).count (L.getD sIdx 0).toNat
      < kraftF (L.map Int.toNat) (L.getD sIdx 0).toNat := by omega
  have hcode2 : 2 * kraftF (L.map Int.toNat) ((L.getD sIdx 0).toNat - 1)
        + ((L.map Int.toNat).take sIdx).count (L.getD sIdx 0).toNat
      < 2 ^ (L.getD sIdx 0).toNat := by
    have := hbound (L.getD sIdx 0).toNat hlM
    omega
  have hmem0 := @entriesFor_symbol (L.getD sIdx 0).toNat (L.map Int.toNat) sIdx 0
    (2 * kraftF (L.map Int.toNat) ((L.getD sIdx 0).toNat - 1)) hlen hget
  have hmem1 := entriesUpTo_of_block (maxList (L.map Int.toNat)) hl1 hlM hmem0
  rw [key_as_add hcode2] at hmem1
  rw [Nat.zero_add] at hmem1
  have hlk := lookup_eq_of_mem_nodup
    (entriesUpTo_keys_nodup (maxList (L.map Int.toNat)) hbound) hmem1
  refine ⟨2 * kraftF (L.map Int.toNat) ((L.getD sIdx 0).toNat - 1)
    + ((L.map Int.toNat).take sIdx).count (L.getD sIdx 0).toNat,
    hcode2, hlk, ?_⟩
  intro s rest hwf hbits
  obtain ⟨s', hdec, hwfs, hbits'⟩ := decodeGo_feed hbound hl1 hlM (by omega) hhi hlk
    (L.getD sIdx 0).toNat 0 (maxList (L.map Int.toNat)) s rest hwf hl1
    (by omega) hlM hbits
  refine ⟨s', ?_, hwfs, hbits'⟩
  rw [CanonicalCode.decode_next_symbol]
  rw [Nat.shiftRight_eq_div_pow, Nat.div_eq_of_lt hcode2,
    show (2 : Nat) ^ 0 + 0 = 1 from rfl] at hdec
  exact hdec

theorem canonical_decode_roundtrip_witness :
    ∃ code, code < 2 ^ ((([1, 1] : List Int).getD 0 0).toNat) ∧
      List.lookup (2 ^ ((([1, 1] : List Int).getD 0 0).toNat) + code)
          [(2, 0), (3, 1)] = some 0 ∧
      ∀ (s : BitInputStream) (rest : List Nat), s.WF →
        s.bitsOf = codeBitsMSB ((([1, 1] : List Int).getD 0 0).toNat) code ++ rest →
        ∃ s', CanonicalCode.decode_next_symbol [(2, 0), (3, 1)] s
            (maxList (([1, 1] : List Int).map Int.toNat))
          = .ok (0, s') ∧ s'.WF ∧ s'.bitsOf = rest :=
  canonical_decode_roundtrip
    (show CanonicalCode.init [1, 1] = .ok [(2, 0), (3, 1)] from by rfl)
    0 (by norm_num) (by norm_num)

/-! ### The distance-code repair step of `_decode_huffman_codes` -/

/-- The distance-code construction step of `_decode_huffman_codes`: the
single-zero vector `[0]` means "no distance code" (`none`); otherwise, when
exactly one symbol has code length 1 and none has a longer code
(`onecount == 1 and otherpositivecount == 0`), the vector is padded with
zeros to 32 entries and symbol 31 is set to length 1 before `CanonicalCode`
construction (`onecount`/`otherpositivecount` are the source's
`sum(1 for x in distcodelen if ...)` aggregations). -/
def buildDistCode (distcodelen : List Int) :
    Except CodeError (Option (List (Nat × Nat))) :=
  if distcodelen = [0] then .ok none
  else
    let onecount := (distcodelen.filter (fun x => x = 1)).length
    let otherpositivecount := (distcodelen.filter (fun x => 1 < x)).length
    let dcl := if onecount = 1 ∧ otherpositivecount = 0 then
        (distcodelen ++ List.replicate (32 - distcodelen.length) 0).set 31 1
      else distcodelen
    match CanonicalCode.init dcl with
    | .error e => .error e
    | .ok m => .ok (some m)

/-- **C8** (counterexample): the 32-entry distance code-length vector whose
single length-1 symbol is symbol 31 itself satisfies the claim's hypotheses
(not `[0]`, one symbol of length 1, none longer), yet the "repair" pads
nothing and sets index 31 to the value it already has, so `CanonicalCode`
construction still fails as under-full — it is rejected, not repaired. -/
theorem distance_repair_counterexample :
    buildDistCode (List.replicate 31 0 ++ [1]) = .error .underfull := by rfl

theorem count_one_map_toNat :
    ∀ (l : List Int), (∀ x ∈ l, 0 ≤ x) →
      (l.map Int.toNat).count 1 = (l.filter (fun x => x = 1)).length := by
  intro l
  induction l with
  | nil => intro _; simp
  | cons x rest ih =>
    intro hnn
    have hx : 0 ≤ x := hnn x (List.mem_cons_self _ _)
    have hrest := ih (fun y hy => hnn y (List.mem_cons_of_mem _ hy))
    rw [List.map_cons, List.count_cons, hrest]
    by_cases h1 : x = 1
    · rw [List.filter_cons_of_pos (by simp [h1]), List.length_cons,
        if_pos (by simp [h1])]
    · rw [List.filter_cons_of_neg (by simp [h1]),
        if_neg (by simp only [beq_iff_eq]; omega)]
      omega

theorem count_eq_zero_of_all_le_one {l : List Nat} (hle : ∀ x ∈ l, x ≤ 1)
    {j : Nat} (hj : 2 ≤ j) : l.count j = 0 := by
  rw [List.count_eq_zero]
  intro hmem
  have := hle j hmem
  omega

/-- **C8** (amended): in dynamic-block decoding, a distance code-length vector
other than `[0]` with exactly one symbol of length 1 and none longer is
repaired rather than rejected — padded with zeros to 32 entries and symbol 31
set to length 1 — and `CanonicalCode` construction on the repaired vector then
succeeds, provided the single length-1 symbol is not symbol 31 itself (when it
is, the repair changes nothing and construction fails under-full, per the
counterexample). -/
theorem distance_repair_amended (distcodelen : List Int)
    (hne0 : distcodelen ≠ [0]) (hlen : distcodelen.length ≤ 32)
    (hnn : ∀ x ∈ distcodelen, 0 ≤ x)
    (hone : (distcodelen.filter (fun x => x = 1)).length = 1)
    (hother : (distcodelen.filter (fun x => 1 < x)).length = 0)
    (h31 : distcodelen.getD 31 0 ≠ 1) :
    buildDistCode distcodelen = .ok (some (entriesUpTo
      (((distcodelen ++ List.replicate (32 - distcodelen.length) 0).set 31 1).map
        Int.toNat)
      (maxList (((distcodelen ++ List.replicate (32 - distcodelen.length) 0).set
        31 1).map Int.toNat)))) := by
  have hle1 : ∀ x ∈ distcodelen, x ≤ 1 := by
    intro x hx
    by_contra hgt
    have hfe : distcodelen.filter (fun x => 1 < x) = [] := List.length_eq_zero.mp hother
    have := List.filter_eq_nil_iff.mp hfe x hx
    simp at this
    omega
  have hplen : (distcodelen ++ List.replicate (32 - distcodelen.length) 0).length
      = 32 := by
    simp
    omega
  have hrep2 : (distcodelen ++ List.replicate (32 - distcodelen.length) 0).set 31 1
      = (distcodelen ++ List.replicate (32 - distcodelen.length) 0).take 31 ++ [1] := by
    rw [List.set_eq_take_cons_drop 1 (by rw [hplen]; norm_num)]
    congr 1
    rw [show (31 + 1 : Nat)
      = (distcodelen ++ List.replicate (32 - distcodelen.length) 0).length from
        by rw [hplen], List.drop_length]
  have hfilt31 : (((distcodelen ++ List.replicate (32 - distcodelen.length) 0).take
      31).filter (fun x => x = 1)).length = 1 := by
    by_cases hn : distcodelen.length ≤ 31
    · rw [List.take_append_eq_append_take, List.take_of_length_le hn, List.take_replicate,
        List.filter_append, List.length_append, hone,
        List.filter_replicate]
      rw [if_neg (by norm_num)]
      simp
    · have hn32 : distcodelen.length = 32 := by omega
      rw [show 32 - distcodelen.length = 0 from by omega, List.replicate_zero,
        List.append_nil, ← hone]
      have hsplit : distcodelen = distcodelen.take 31 ++ distcodelen.drop 31 :=
        (List.take_append_drop _ _).symm
      have hdrop : distcodelen.drop 31 = [distcodelen[31]] := by
        rw [List.drop_eq_getElem_cons (by omega)]
        congr 1
        rw [show (31 + 1 : Nat) = distcodelen.length from by omega, List.drop_length]
      have hd1 : ¬ (distcodelen[31] = 1) := by
        intro hval
        apply h31
        rw [List.getD_eq_getElem?_getD, List.getElem?_eq_getElem (by omega)]
        exact hval
      conv_rhs => rw [hsplit]
      rw [List.filter_append, List.length_append, hdrop,
        List.filter_cons_of_neg (by simpa using hd1), List.filter_nil]
      simp
  have hfiltrep : (((distcodelen ++ List.replicate (32 - distcodelen.length) 0).set
      31 1).filter (fun x => x = 1)).length = 2 := by
    rw [hrep2, List.filter_append, List.length_append, hfilt31,
      List.filter_cons_of_pos (by norm_num), List.filter_nil]
    rfl
  have hrepmem : ∀ x ∈ (distcodelen ++ List.replicate (32 - distcodelen.length)
      0).set 31 1, 0 ≤ x ∧ x ≤ 1 := by
    intro x hx
    rw [hrep2, List.mem_append] at hx
    rcases hx with hx | hx
    · have hx' := List.take_subset _ _ hx
      rw [List.mem_append] at hx'
      rcases hx' with hx' | hx'
      · exact ⟨hnn x hx', hle1 x hx'⟩
      · rw [List.eq_of_mem_replicate hx']
        norm_num
    · rw [List.mem_singleton.mp hx]
      norm_num
  have hcount1 : ((((distcodelen ++ List.replicate (32 - distcodelen.length)
      0).set 31 1)).map Int.toNat).count 1 = 2 := by
    rw [count_one_map_toNat _ (fun x hx => (hrepmem x hx).1), hfiltrep]
  have hle1N : ∀ y ∈ (((distcodelen ++ List.replicate (32 - distcodelen.length)
      0).set 31 1)).map Int.toNat, y ≤ 1 := by
    intro y hy
    obtain ⟨x, hx, rfl⟩ := List.mem_map.mp hy
    have := (hrepmem x hx).2
    omega
  have hmax : maxList ((((distcodelen ++ List.replicate (32 -
      distcodelen.length) 0).set 31 1)).map Int.toNat) = 1 := by
    have hup : maxList _ ≤ 1 := foldl_max_le _ 0 1 (by norm_num) hle1N
    have hdn : 1 ≤ maxList ((((distcodelen ++ List.replicate (32 -
        distcodelen.length) 0).set 31 1)).map Int.toNat) := by
      apply mem_le_maxList
      rw [← List.count_pos_iff]
      omega
    omega
  have hkf1 : kraftF ((((distcodelen ++ List.replicate (32 -
      distcodelen.length) 0).set 31 1)).map Int.toNat) 1 = 2 := by
    rw [show (1 : Nat) = 0 + 1 from rfl, kraftF_succ]
    simp only [kraftF, Nat.zero_add, Nat.mul_zero, hcount1]
  have hinit := @init_ok
    ((distcodelen ++ List.replicate (32 - distcodelen.length) 0).set 31 1)
    (by
      rw [List.any_eq_true]
      push_neg
      intro x hx
      have := (hrepmem x hx).1
      simp
      omega)
    (by
      rw [hrep2]
      simp)
    (by
      rw [hmax]
      intro j hj
      interval_cases j
      · simp [kraftF]
      · rw [hkf1]
        norm_num)
    (by rw [hmax, hkf1]; norm_num)
  rw [buildDistCode, if_neg hne0]
  show (match CanonicalCode.init (if (distcodelen.filter (fun x => x = 1)).length = 1
        ∧ (distcodelen.filter (fun x => 1 < x)).length = 0 then
      (distcodelen ++ List.replicate (32 - distcodelen.length) 0).set 31 1
    else distcodelen) with
    | .error e => Except.error e
    | .ok m => Except.ok (some m)) = _
  rw [if_pos ⟨hone, hother⟩, hinit]

theorem distance_repair_amended_witness :
    ∃ m, buildDistCode [1] = .ok (some m) :=
  ⟨_, distance_repair_amended [1] (by decide) (by norm_num) (by decide)
    (by decide) (by decide) (by decide)⟩

/-! ### Stored (uncompressed) blocks -/

/-- The alignment loop of `_decompress_uncompressed_block`
(`while get_bit_position() != 0: read_uint(1)`), with fuel 8: each iteration
decrements `numBitsRemaining`, which starts at most 7 in a well-formed
state. -/
def alignToByteAux : Nat → BitInputStream → Except DeflateError BitInputStream
  | 0, _ => .error .outOfFuel
  | f + 1, s =>
    if s.get_bit_position ≠ 0 then
      match s.read_uint 1 with
      | .error e => .error e
      | .ok (_, s') => alignToByteAux f s'
    else .ok s

def alignToByte (s : BitInputStream) : Except DeflateError BitInputStream :=
  alignToByteAux 8 s

/-- Reading one bit from a mid-byte position only decrements the bit count. -/
theorem read_uint_one_state {s : BitInputStream} (hwf : s.WF)
    (hnum : s.numBitsRemaining ≠ 0) :
    ∃ b, s.read_uint 1
      = .ok (b, ⟨s.input, s.currentByte, s.numBitsRemaining - 1⟩) := by
  have hcb : s.currentByte ≠ -1 := fun h => hnum (hwf.curEof h)
  refine ⟨(s.currentByte.toNat >>> (8 - s.numBitsRemaining)) &&& 1, ?_⟩
  have hrb : s.read_bit_maybe
      = ((((s.currentByte.toNat >>> (8 - s.numBitsRemaining)) &&& 1 : Nat) : Int),
        ⟨s.input, s.currentByte, s.numBitsRemaining - 1⟩) := by
    rw [BitInputStream.read_bit_maybe, if_neg hcb, if_neg hnum,
      BitInputStream.emitBit,
      show 7 - (s.numBitsRemaining - 1) = 8 - s.numBitsRemaining from by
        have := hwf.numLe
        omega]
  rw [BitInputStream.read_uint, if_neg (by norm_num),
    show (1 : Int).toNat = 1 from rfl, BitInputStream.readUintLoop, hrb]
  show (if ((((s.currentByte.toNat >>> (8 - s.numBitsRemaining)) &&& 1 : Nat) : Int))
        = -1 then Except.error DeflateError.unexpectedEnd
      else BitInputStream.readUintLoop 0 (0 + 1)
        (0 ||| ((((s.currentByte.toNat >>> (8 - s.numBitsRemaining)) &&& 1 : Nat)
          : Int)).toNat <<< 0)
        ⟨s.input, s.currentByte, s.numBitsRemaining - 1⟩) = _
  rw [if_neg (by omega)]
  rw [BitInputStream.readUintLoop]
  congr 2
  rw [Int.toNat_natCast, Nat.shiftLeft_zero, Nat.zero_or]

theorem alignToByteAux_ok :
    ∀ (f : Nat) (s : BitInputStream), s.WF → s.numBitsRemaining < f →
      alignToByteAux f s = .ok ⟨s.input, s.currentByte, 0⟩ := by
  intro f
  induction f with
  | zero => intro s _ h; omega
  | succ f ih =>
    intro s hwf hlt
    by_cases hnum : s.numBitsRemaining = 0
    · rw [alignToByteAux, if_neg (by simp [BitInputStream.get_bit_position, hnum])]
      obtain ⟨inp, cb, num⟩ := s
      simp only at hnum
      rw [hnum]
    · have hpos : s.get_bit_position ≠ 0 := by
        rw [BitInputStream.get_bit_position]
        have h7 := hwf.numLe
        omega
      obtain ⟨b, hb⟩ := read_uint_one_state hwf hnum
      rw [alignToByteAux, if_pos hpos, hb]
      have hwf' : BitInputStream.WF ⟨s.input, s.currentByte, s.numBitsRemaining - 1⟩ := by
        refine ⟨?_, hwf.curRange, ?_, hwf.inputBytes⟩
        · show s.numBitsRemaining - 1 ≤ 7
          have := hwf.numLe
          omega
        · intro h
          exact absurd h (fun hc => hnum (hwf.curEof hc))
      exact ih _ hwf' (by show s.numBitsRemaining - 1 < f; omega)

theorem alignToByte_ok {s : BitInputStream} (hwf : s.WF) :
    alignToByte s = .ok ⟨s.input, s.currentByte, 0⟩ :=
  alignToByteAux_ok 8 s hwf (by have := hwf.numLe; omega)

/-- Reading 8 bits at a byte-aligned position yields exactly the next byte. -/
theorem read_uint8_byte {s : BitInputStream} {b : Nat} {tail : List Nat}
    (hwf : s.WF) (hb : b < 256) (hbits : s.bitsOf = byteBits b ++ tail) :
    ∃ t, s.read_uint (8 : Int) = .ok (b, t) ∧ t.WF ∧ t.bitsOf = tail := by
  have hlen : 8 ≤ s.bitsOf.length := by
    rw [hbits, List.length_append, byteBits_length]
    omega
  obtain ⟨t, hok, hwt, hbt⟩ := read_uint_ok 8 hwf hlen
  have htake : s.bitsOf.take 8 = byteBits b := by
    rw [hbits, ← byteBits_length b, List.take_left]
  have hdrop : s.bitsOf.drop 8 = tail := by
    rw [hbits, ← byteBits_length b, List.drop_left]
  rw [htake, packLE_byteBits hb] at hok
  exact ⟨t, hok, hwt, by rw [hbt, hdrop]⟩

/-- Reading 16 bits at a byte-aligned position yields the little-endian
combination of the next two bytes. -/
theorem read_uint16_bytes {s : BitInputStream} {b0 b1 : Nat} {tail : List Nat}
    (hwf : s.WF) (hb0 : b0 < 256) (hb1 : b1 < 256)
    (hbits : s.bitsOf = byteBits b0 ++ byteBits b1 ++ tail) :
    ∃ t, s.read_uint (16 : Int) = .ok (b0 + 256 * b1, t) ∧
      t.WF ∧ t.bitsOf = tail := by
  have hassoc : s.bitsOf = (byteBits b0 ++ byteBits b1) ++ tail := by
    rw [hbits, List.append_assoc]
  have hlen16 : (byteBits b0 ++ byteBits b1).length = 16 := by
    rw [List.length_append, byteBits_length, byteBits_length]
  have hlen : 16 ≤ s.bitsOf.length := by
    rw [hassoc, List.length_append, hlen16]
    omega
  obtain ⟨t, hok, hwt, hbt⟩ := read_uint_ok 16 hwf hlen
  have htake : s.bitsOf.take 16 = byteBits b0 ++ byteBits b1 := by
    rw [hassoc, ← hlen16, List.take_left]
  have hdrop : s.bitsOf.drop 16 = tail := by
    rw [hassoc, ← hlen16, List.drop_left]
  have hpack : packLE (byteBits b0 ++ byteBits b1) = b0 + 256 * b1 := by
    rw [packLE_append, byteBits_length, packLE_byteBits hb0, packLE_byteBits hb1]
    norm_num
  rw [htake, hpack] at hok
  exact ⟨t, hok, hwt, by rw [hbt, hdrop]⟩

/-- Byte-copy loop of `_decompress_uncompressed_block`
(`for _ in range(len): b = read_uint(8); ...`): each iteration reads one
aligned byte, writes it to the output sink (accumulated in `out`) and appends
it to the window.  The `b == -1` branch of the source is dead code (the model
keeps it: `read_uint` raises instead of returning `-1`). -/
def storedLoop : Nat → BitInputStream → ByteHistory → List Nat →
    Except DeflateError (BitInputStream × ByteHistory × List Nat)
  | 0, s, hist, out => .ok (s, hist, out)
  | n + 1, s, hist, out =>
    match s.read_uint 8 with
    | .error e => .error e
    | .ok (b, s') =>
      if (b : Int) = -1 then .error .unexpectedEnd
      else storedLoop n s' (hist.append b) (out ++ [b])

/-- `_decompress_uncompressed_block`: discard bits up to the next byte
boundary, read the 16-bit `LEN` and `NLEN` fields, check
`LEN ^ 0xFFFF == NLEN`, then copy `LEN` bytes from the stream to the sink and
the window. -/
def decompress_uncompressed_block (s : BitInputStream) (hist : ByteHistory) :
    Except DeflateError (BitInputStream × ByteHistory × List Nat) :=
  match alignToByte s with
  | .error e => .error e
  | .ok s1 =>
    match s1.read_uint 16 with
    | .error e => .error e
    | .ok (len, s2) =>
      match s2.read_uint 16 with
      | .error e => .error e
      | .ok (nlen, s3) =>
        if len ^^^ 0xFFFF ≠ nlen then .error .corruptStoredHeader
        else storedLoop len s3 hist []

/-- The byte-copy loop consumes exactly `data.length` aligned bytes, appends
each to the window in order, and emits them in order. -/
theorem storedLoop_ok :
    ∀ (data : List Nat) (s : BitInputStream) (hist : ByteHistory)
      (out tail : List Nat),
      s.WF → (∀ b ∈ data, b < 256) →
      s.bitsOf = data.flatMap byteBits ++ tail →
      ∃ t, storedLoop data.length s hist out
          = .ok (t, data.foldl ByteHistory.append hist, out ++ data) ∧
        t.WF ∧ t.bitsOf = tail := by
  intro data
  induction data with
  | nil =>
    intro s hist out tail hwf _ hbits
    refine ⟨s, ?_, hwf, ?_⟩
    · show Except.ok (s, hist, out) = _
      rw [List.append_nil]
      rfl
    · rw [hbits]
      rfl

  | cons b ds ih =>
    intro s hist out tail hwf hbytes hbits
    have hb : b < 256 := hbytes b (List.mem_cons_self _ _)
    have hbits' : s.bitsOf = byteBits b ++ (ds.flatMap byteBits ++ tail) := by
      rw [hbits, List.flatMap_cons, List.append_assoc]
    obtain ⟨u, hok, hwu, hbu⟩ := read_uint8_byte hwf hb hbits'
    obtain ⟨t, hok', hwt, hbt⟩ := ih u (hist.append b) (out ++ [b]) tail hwu
      (fun c hc => hbytes c (List.mem_cons_of_mem _ hc)) hbu
    refine ⟨t, ?_, hwt, hbt⟩
    show (match s.read_uint 8 with
      | .error e => Except.error e
      | .ok (c, s') =>
        if (c : Int) = -1 then Except.error DeflateError.unexpectedEnd
        else storedLoop ds.length s' (hist.append c) (out ++ [c])) = _
    rw [hok]
    show (if ((b : Nat) : Int) = -1 then Except.error DeflateError.unexpectedEnd
      else storedLoop ds.length u (hist.append b) (out ++ [b])) = _
    rw [if_neg (by omega), hok', List.foldl_cons, List.append_assoc]
    rfl

/-- **C7**: decoding a stored block (`BTYPE = 0`) first discards bits up to
the next byte boundary, reads the 16-bit `LEN` and `NLEN` fields, raises the
corrupt-header `ValueError` exactly when `LEN xor NLEN` is not `0xFFFF`, and
otherwise emits exactly the next `LEN` bytes to the sink and appends each to
the window (in particular `LEN = 0`, with `data = []`, succeeds and emits
nothing). -/
theorem stored_block_spec (s : BitInputStream) (hist : ByteHistory)
    (b0 b1 n0 n1 : Nat) (data rest : List Nat)
    (hwf : s.WF) (hcb : s.currentByte ≠ -1)
    (hinp : s.input = b0 :: b1 :: n0 :: n1 :: (data ++ rest))
    (hlen : data.length = b0 + 256 * b1) :
    ((b0 + 256 * b1) ^^^ 0xFFFF ≠ n0 + 256 * n1 →
      decompress_uncompressed_block s hist = .error .corruptStoredHeader) ∧
    ((b0 + 256 * b1) ^^^ 0xFFFF = n0 + 256 * n1 →
      ∃ t, decompress_uncompressed_block s hist
          = .ok (t, data.foldl ByteHistory.append hist, data) ∧
        t.WF ∧ t.bitsOf = rest.flatMap byteBits) := by
  have halign : alignToByte s = .ok ⟨s.input, s.currentByte, 0⟩ :=
    alignToByte_ok hwf
  have hwf1 : BitInputStream.WF ⟨s.input, s.currentByte, 0⟩ :=
    ⟨by norm_num, hwf.curRange, fun _ => rfl, hwf.inputBytes⟩
  have hby : ∀ b ∈ b0 :: b1 :: n0 :: n1 :: (data ++ rest), b < 256 := by
    rw [← hinp]
    exact hwf.inputBytes
  have hb0 : b0 < 256 := hby _ (by simp)
  have hb1 : b1 < 256 := hby _ (by simp)
  have hn0 : n0 < 256 := hby _ (by simp)
  have hn1 : n1 < 256 := hby _ (by simp)
  have hdata : ∀ b ∈ data, b < 256 := fun b hb => hby b (by simp [hb])
  have hbits1 : BitInputStream.bitsOf ⟨s.input, s.currentByte, 0⟩
      = byteBits b0 ++ (byteBits b1 ++ (byteBits n0 ++ (byteBits n1
        ++ (data.flatMap byteBits ++ rest.flatMap byteBits)))) := by
    show (if s.currentByte = -1 then [] else
      (List.range 0).map
        (fun i => (s.currentByte.toNat >>> (8 - 0 + i)) &&& 1)
      ++ s.input.flatMap byteBits) = _
    rw [if_neg hcb, hinp]
    simp [List.flatMap_cons, List.flatMap_append]
  obtain ⟨s2, hok1, hwf2, hbits2⟩ := read_uint16_bytes hwf1 hb0 hb1 hbits1
  obtain ⟨s3, hok2, hwf3, hbits3⟩ := read_uint16_bytes hwf2 hn0 hn1 hbits2
  have hred : decompress_uncompressed_block s hist
      = if (b0 + 256 * b1) ^^^ 0xFFFF ≠ n0 + 256 * n1 then
          Except.error DeflateError.corruptStoredHeader
        else storedLoop (b0 + 256 * b1) s3 hist [] := by
    simp only [decompress_uncompressed_block, halign, hok1, hok2]
  constructor
  · intro hne
    rw [hred, if_pos hne]
  · intro heq
    obtain ⟨t, hok3, hwt, hbt⟩ :=
      storedLoop_ok data s3 hist [] (rest.flatMap byteBits) hwf3 hdata hbits3
    refine ⟨t, ?_, hwt, hbt⟩
    rw [hred, if_neg (fun h => h heq), ← hlen, hok3, List.nil_append]

theorem stored_block_spec_witness :
    ∃ t, decompress_uncompressed_block ⟨[2, 0, 253, 255, 171, 205], 0, 0⟩
        ⟨[0, 0, 0], 0, 0⟩
        = .ok (t, List.foldl ByteHistory.append ⟨[0, 0, 0], 0, 0⟩ [171, 205],
          [171, 205]) ∧
      t.bitsOf = [] := by
  obtain ⟨t, hok, -, hbt⟩ :=
    (stored_block_spec ⟨[2, 0, 253, 255, 171, 205], 0, 0⟩ ⟨[0, 0, 0], 0, 0⟩
      2 0 253 255 [171, 205] []
      ⟨by norm_num, Or.inr (by norm_num), fun _ => rfl, by decide⟩
      (by norm_num) (by decide) (by decide)).2 (by decide)
  exact ⟨t, hok, by rw [hbt]; rfl⟩
